import Mathlib

/-!
Verification development for the aisen error-collection library
(error event scrubbing, fingerprinting, collector orchestration,
multi sink, async sink, and an operation-history ring buffer).

Strings of the Go source are modelled as lists of characters
(the source only manipulates ASCII data, where Go byte length and
character count agree).  Go regular expressions are modelled by a
small backtracking matcher with leftmost-first preference order,
greedy quantifiers and word boundaries, mirroring the semantics of
the regexp package on the fixed pattern set of the source.
-/

namespace Aisen

/-- Strings are modelled as lists of characters. -/
abbrev Str := List Char

/-- Regular expression abstract syntax.  A character class is a
boolean predicate; alternation is ordered (left branch preferred);
star is greedy. -/
inductive RE where
  | emp : RE
  | cls (p : Char → Bool) : RE
  | cat (a b : RE) : RE
  | alt (a b : RE) : RE
  | star (a : RE) : RE
  | bndry : RE

/-- Word characters for the word-boundary assertion, as in the
regexp package: [0-9A-Za-z_]. -/
def isWordChar (c : Char) : Bool :=
  (('a' ≤ c && c ≤ 'z') || ('A' ≤ c && c ≤ 'Z') || ('0' ≤ c && c ≤ '9') || c = '_')

/-- Wordness of the character left of the current position (edge
counts as non-word). -/
def wordOpt : Option Char → Bool
  | none => false
  | some c => isWordChar c

/-- Wordness of the character at the current position. -/
def wordHead : Str → Bool
  | [] => false
  | c :: _ => isWordChar c

/-- The word-boundary test of the regexp package: the two sides
differ in wordness. -/
def boundaryB (prev : Option Char) (s : Str) : Bool :=
  wordOpt prev != wordHead s

/-- One result of a partial match: the character just before the
remaining suffix, and the remaining suffix. -/
abbrev MRes := Option Char × Str

/-- Greedy iteration of a star body.  The body is tried first and the
iteration continues only while it consumed at least one character
(the empty-progress rule of the regexp package); stopping here is the
least preferred outcome.  Structurally recursive on the fuel, which
callers take at least as large as the input length plus one. -/
def starIter (step : Option Char → Str → List MRes) : Nat → Option Char → Str → List MRes
  | 0, prev, s => [(prev, s)]
  | fuel + 1, prev, s =>
      ((step prev s).flatMap fun pr =>
        if pr.2.length < s.length then starIter step fuel pr.1 pr.2 else [])
      ++ [(prev, s)]

/-- All ways to match a regular expression at the start of the input,
in leftmost-first (backtracking) preference order.  The fuel bounds
star unrolling only; every caller passes fuel at least the input
length plus one, for which the semantics agree with the regexp
package. -/
def reA : RE → Nat → Option Char → Str → List MRes
  | .emp, _, prev, s => [(prev, s)]
  | .bndry, _, prev, s => if boundaryB prev s then [(prev, s)] else []
  | .cls p, _, _, s =>
      match s with
      | [] => []
      | c :: t => if p c then [(some c, t)] else []
  | .alt a b, fuel, prev, s => reA a fuel prev s ++ reA b fuel prev s
  | .cat a b, fuel, prev, s => (reA a fuel prev s).flatMap fun pr => reA b fuel pr.1 pr.2
  | .star a, fuel, prev, s => starIter (fun p1 s1 => reA a fuel p1 s1) fuel prev s

/-- The preferred match at the current position, if any: the head of
the preference-ordered result list.  This is the match extent the
regexp package selects (leftmost-first). -/
def matchAt (r : RE) (fuel : Nat) (prev : Option Char) (s : Str) : Option MRes :=
  (reA r fuel prev s).head?

/-- One pass of ReplaceAllString: scan left to right; at each
position take the preferred match and replace it, otherwise keep the
character and advance.  An empty match inserts the replacement and
advances one character, as the regexp package does.  Matching context
(the previous character, for word boundaries) always comes from the
original input.  Fuel is the input length plus one; it decreases by
one per scan step and each step consumes at least one character. -/
def scanF (r : RE) (repl : Str) : Nat → Option Char → Str → Str
  | 0, _, s => s
  | fuel + 1, prev, s =>
      match matchAt r (fuel + 1) prev s with
      | none =>
          match s with
          | [] => []
          | c :: t => c :: scanF r repl fuel (some c) t
      | some (p1, rest) =>
          if rest.length < s.length then repl ++ scanF r repl fuel p1 rest
          else
            match s with
            | [] => repl
            | c :: t => repl ++ c :: scanF r repl fuel (some c) t

/-- ReplaceAllString of the regexp package (with a literal
replacement string, which is all the source uses). -/
def replaceAll (r : RE) (repl : Str) (s : Str) : Str :=
  scanF r repl (s.length + 1) none s

/-- Literal (case-sensitive) character. -/
def chr (c : Char) : RE := .cls (fun d => d = c)

/-- Case-insensitive character, for patterns compiled with (?i). -/
def chrI (c : Char) : RE := .cls (fun d => d.toLower = c.toLower)

/-- Case-sensitive literal string. -/
def strRE : Str → RE
  | [] => .emp
  | c :: t => .cat (chr c) (strRE t)

/-- Case-insensitive literal string. -/
def strREI : Str → RE
  | [] => .emp
  | c :: t => .cat (chrI c) (strREI t)

/-- Greedy option: the question-mark quantifier. -/
def opt (a : RE) : RE := .alt a .emp

/-- Greedy plus quantifier. -/
def plus (a : RE) : RE := .cat a (.star a)

/-- Exactly n repetitions. -/
def repN : Nat → RE → RE
  | 0, _ => .emp
  | n + 1, a => .cat a (repN n a)

/-- At least n repetitions (greedy). -/
def atLeast (n : Nat) (a : RE) : RE := .cat (repN n a) (.star a)

/-- Decimal digit class. -/
def digitC : RE := .cls fun c => '0' ≤ c && c ≤ '9'

/-- Hexadecimal digit test. -/
def isHexB (c : Char) : Bool :=
  ('0' ≤ c && c ≤ '9') || ('a' ≤ c && c ≤ 'f') || ('A' ≤ c && c ≤ 'F')

/-- Hexadecimal digit class [0-9a-fA-F]. -/
def hexC : RE := .cls isHexB

/-- ASCII letter test. -/
def isAlphaB (c : Char) : Bool :=
  ('a' ≤ c && c ≤ 'z') || ('A' ≤ c && c ≤ 'Z')

/-- ASCII digit test. -/
def isDigitB (c : Char) : Bool := '0' ≤ c && c ≤ '9'

/-- Whitespace as matched by the Perl class backslash-s of the regexp
package: tab, newline, form feed, carriage return, space. -/
def isSpaceB (c : Char) : Bool :=
  c = ' ' || c = '\t' || c = '\n' || c = '\u000c' || c = '\r'

/-- The Perl word class backslash-w: [0-9A-Za-z_]. -/
def wC : RE := .cls isWordChar

example : matchAt (strRE "ab".toList) 10 none "abc".toList = some (some 'b', ['c']) := by
  decide

example : matchAt (plus digitC) 10 none "12a".toList = some (some '2', ['a']) := by
  decide

example : matchAt (plus digitC) 10 none "a12".toList = none := by decide

example : replaceAll (plus digitC) "#".toList "a12b3".toList = "a#b#".toList := by decide

example :
    replaceAll (.cat .bndry (.cat (repN 3 digitC) .bndry)) "#".toList
      "123 1234 456".toList = "# 1234 #".toList := by decide

/-! ### The compiled message scrub patterns of scrubber.go

Each definition transcribes one entry of messageScrubPatterns, in
source order.  Patterns compiled with (?i) use case-insensitive
literals and classes. -/

/-- The class [=:\s]. -/
def eqColSpC : RE := .cls fun c => c = '=' || c = ':' || isSpaceB c

/-- The class of the two quote characters. -/
def quoteC : RE := .cls fun c => c = '\'' || c = '"'

/-- The class [\w\-\.]. -/
def wDotDashC : RE := .cls fun c => isWordChar c || c = '-' || c = '.'

/-- The class [a-zA-Z0-9]. -/
def alnumC : RE := .cls fun c => isAlphaB c || isDigitB c

/-- The class [a-zA-Z0-9_-]. -/
def wDashC : RE := .cls fun c => isWordChar c || c = '-'

/-- The negated class of the credential patterns: any character that
is not whitespace, a quote, or a comma. -/
def negCredC : RE := .cls fun c => !(isSpaceB c || c = '\'' || c = '"' || c = ',')

/-- api key and token assignments. -/
def patApiKey : RE :=
  .cat (.alt (.cat (strREI "api".toList)
                (.cat (opt (.cls fun c => c = '_' || c = '-')) (strREI "key".toList)))
             (strREI "token".toList))
    (.cat (plus eqColSpC) (.cat (opt quoteC) (.cat (plus wDotDashC) (opt quoteC))))

/-- Authorization and bearer headers. -/
def patBearer : RE :=
  .cat (.alt (strREI "authorization".toList) (strREI "bearer".toList))
    (.cat (plus eqColSpC)
      (.cat (opt quoteC)
        (.cat (plus wDotDashC)
          (.cat (opt quoteC)
            (.cat (plus (.cls isSpaceB))
              (.cat (opt quoteC) (.cat (plus wDotDashC) (opt quoteC))))))))

/-- OpenAI-style keys. -/
def patSk : RE := .cat (strREI "sk-".toList) (atLeast 20 wDashC)

/-- GitHub tokens. -/
def patGhp : RE := .cat (strREI "ghp_".toList) (repN 36 alnumC)

/-- GitHub OAuth tokens. -/
def patGho : RE := .cat (strREI "gho_".toList) (repN 36 alnumC)

/-- GitHub personal access tokens. -/
def patGithubPat : RE := .cat (strREI "github_pat_".toList) (atLeast 22 wC)

/-- Slack tokens. -/
def patXox : RE :=
  .cat (strREI "xox".toList)
    (.cat (.cls fun c =>
        c.toLower = 'b' || c.toLower = 'a' || c.toLower = 'p' || c.toLower = 'r' ||
          c.toLower = 's')
      (.cat (chrI '-') (atLeast 10 wDashC)))

/-- JWT tokens. -/
def patJwt : RE :=
  .cat (strREI "eyJ".toList)
    (.cat (.star wDashC)
      (.cat (chrI '.')
        (.cat (strREI "eyJ".toList)
          (.cat (.star wDashC) (.cat (chrI '.') (.star wDashC))))))

/-- A credential assignment pattern: the given keyword followed by
separators and a value. -/
def patCred (kw : Str) : RE :=
  .cat (strREI kw)
    (.cat (plus eqColSpC) (.cat (opt quoteC) (.cat (plus negCredC) (opt quoteC))))

/-- The email local-part class [A-Za-z0-9._%+-]. -/
def emailLocalC : RE :=
  .cls fun c => isAlphaB c || isDigitB c || c = '.' || c = '_' || c = '%' || c = '+' || c = '-'

/-- The email domain class [A-Za-z0-9.-]. -/
def emailDomC : RE := .cls fun c => isAlphaB c || isDigitB c || c = '.' || c = '-'

/-- The email top-level-domain class [A-Z|a-z]; the bar is a literal
member of the class, exactly as written in the source. -/
def emailTldC : RE := .cls fun c => isAlphaB c || c = '|'

/-- Email addresses. -/
def patEmail : RE :=
  .cat .bndry
    (.cat (plus emailLocalC)
      (.cat (chr '@')
        (.cat (plus emailDomC) (.cat (chr '.') (.cat (atLeast 2 emailTldC) .bndry)))))

/-- Social security numbers. -/
def patSSN : RE :=
  .cat .bndry
    (.cat (repN 3 digitC)
      (.cat (chr '-')
        (.cat (repN 2 digitC) (.cat (chr '-') (.cat (repN 4 digitC) .bndry)))))

/-- The class [\s-]. -/
def spDashC : RE := .cls fun c => isSpaceB c || c = '-'

/-- Credit card numbers. -/
def patCC : RE :=
  .cat .bndry
    (.cat (repN 4 digitC)
      (.cat (opt spDashC)
        (.cat (repN 4 digitC)
          (.cat (opt spDashC)
            (.cat (repN 4 digitC) (.cat (opt spDashC) (.cat (repN 4 digitC) .bndry)))))))

/-- messageScrubPatterns of scrubber.go, in source order. -/
def messageScrubPatterns : List RE :=
  [patApiKey, patBearer, patSk, patGhp, patGho, patGithubPat, patXox, patJwt,
   patCred "password".toList, patCred "secret".toList, patCred "passwd".toList,
   patCred "credential".toList, patEmail, patSSN, patCC]

/-- A path normalization pattern: a literal prefix, one or more
characters other than the separator, then the separator. -/
def pathPat (pre : Str) (sep : Char) : RE :=
  .cat (strRE pre) (.cat (plus (.cls fun c => c ≠ sep)) (chr sep))

/-- pathNormalizationPatterns of scrubber.go, in source order. -/
def pathNormalizationPatterns : List RE :=
  [pathPat "/home/".toList '/', pathPat "/Users/".toList '/',
   pathPat "C:\\Users\\".toList '\\', pathPat "/tmp/".toList '/']

/-- Memory addresses: 0x followed by hexadecimal digits. -/
def memAddrPattern : RE := .cat (chr '0') (.cat (chr 'x') (plus hexC))

/-- Offsets: a plus sign followed by a memory address. -/
def offsetPattern : RE := .cat (chr '+') memAddrPattern

/-- The body of funcNamePattern of fingerprint.go (the leading anchor
is realised by matching at position zero only). -/
def funcNamePattern : RE :=
  .cat (plus (.cls fun c => isAlphaB c || isDigitB c || c = '_' || c = '.' || c = '/'))
    (.cat (chr '.') (plus wC))

example :
    replaceAll patEmail "[REDACTED]".toList "hi user@example.com bye".toList =
      "hi [REDACTED] bye".toList := by decide

example :
    replaceAll (patCred "secret".toList) "[REDACTED]".toList "a secret=abc123xyz b".toList =
      "a [REDACTED] b".toList := by decide

example :
    replaceAll memAddrPattern [] "main.handler(0x1234abcd)".toList =
      "main.handler()".toList := by decide

/-! ### Go string helpers used by the scrubber -/

/-- strings.Contains: does pat occur as a contiguous substring of s?
The empty pattern occurs in every string. -/
def containsStr (s pat : Str) : Bool :=
  match s with
  | [] => pat.isEmpty
  | _ :: t => pat.isPrefixOf s || containsStr t pat

/-- strings.HasPrefix. -/
def hasPrefixStr (s pre : Str) : Bool := pre.isPrefixOf s

/-- strings.ToLower (ASCII). -/
def toLowerStr (s : Str) : Str := s.map Char.toLower

/-- The whitespace set trimmed by strings.TrimSpace (ASCII part). -/
def isTrimSpaceB (c : Char) : Bool :=
  c = ' ' || c = '\t' || c = '\n' || c = '\u000b' || c = '\u000c' || c = '\r'

/-- strings.TrimSpace. -/
def trimSpace (s : Str) : Str :=
  ((s.dropWhile isTrimSpaceB).reverse.dropWhile isTrimSpaceB).reverse

/-- strings.Split on a single newline separator. -/
def splitLinesGo : Str → List Str
  | [] => [[]]
  | c :: t =>
      match splitLinesGo t with
      | [] => [[c]]
      | h :: tl => if c = '\n' then [] :: h :: tl else (c :: h) :: tl

example : splitLinesGo "ab\nc\n".toList = ["ab".toList, "c".toList, []] := by decide

/-! ### ScrubberConfig and the field scrubbers of scrubber.go -/

/-- ScrubberConfig controls scrubbing behavior.  Sizes are modelled
as natural numbers (the source only ever uses non-negative values). -/
structure ScrubberConfig where
  ToolArgAllowlist : List Str := []
  SensitivePatterns : List Str := []
  MaxMessageSize : Nat := 0
  MaxStackTraceSize : Nat := 0
  MaxToolArgsSize : Nat := 0
  MaxMetadataSize : Nat := 0
  MaxMetadataKeySize : Nat := 0
  ScrubMessages : Bool := false
  FailClosed : Bool := false

/-- DefaultScrubberConfig returns production-safe defaults. -/
def DefaultScrubberConfig : ScrubberConfig :=
  { MaxMessageSize := 4096
    MaxStackTraceSize := 32768
    MaxToolArgsSize := 8192
    MaxMetadataSize := 16384
    MaxMetadataKeySize := 1024
    ScrubMessages := true
    FailClosed := true }

/-- The truncation marker. -/
def truncMarker : Str := "...[TRUNCATED]".toList

/-- The redaction marker. -/
def redactedMarker : Str := "[REDACTED]".toList

/-- truncateWithMarker truncates a string and adds a truncation
marker. -/
def truncateWithMarker (s : Str) (maxLen : Nat) : Str :=
  if s.length ≤ maxLen then s
  else if maxLen ≤ truncMarker.length then truncMarker.take maxLen
  else s.take (maxLen - truncMarker.length) ++ truncMarker

/-- One ReplaceAllString pass per pattern, in order, with the
redaction marker as replacement. -/
def applyScrubPatterns (pats : List RE) (s : Str) : Str :=
  pats.foldl (fun acc p => replaceAll p redactedMarker acc) s

/-- ScrubMessage scrubs sensitive patterns from an error message. -/
def ScrubMessage (cfg : ScrubberConfig) (msg : Str) : Str :=
  if !cfg.ScrubMessages then msg
  else
    let m := if msg.length > cfg.MaxMessageSize then truncateWithMarker msg cfg.MaxMessageSize
             else msg
    applyScrubPatterns messageScrubPatterns m

/-- Sensitive metadata key patterns (case-insensitive substring
match). -/
def sensitiveKeyPatterns : List Str :=
  ["token".toList, "key".toList, "secret".toList, "password".toList,
   "credential".toList, "auth".toList, "passwd".toList]

/-- isSensitiveKey checks if a metadata key matches sensitive
patterns. -/
def isSensitiveKey (k : Str) : Bool :=
  sensitiveKeyPatterns.any fun pat => containsStr (toLowerStr k) pat

/-- ScrubMetadata redacts sensitive keys from metadata.  The Go map
is modelled as an association list; the per-entry treatment is the
loop body of the source. -/
def ScrubMetadata (cfg : ScrubberConfig) (meta : List (Str × Str)) : List (Str × Str) :=
  meta.map fun kv =>
    if isSensitiveKey kv.1 then (kv.1, redactedMarker)
    else if kv.2.length > cfg.MaxMetadataKeySize then
      (kv.1, truncateWithMarker kv.2 cfg.MaxMetadataKeySize)
    else kv

/-- ScrubStackTrace normalizes paths and limits stack trace size. -/
def ScrubStackTrace (cfg : ScrubberConfig) (trace : Str) : Str :=
  if trace = [] then trace
  else
    let r := pathNormalizationPatterns.foldl
      (fun acc p => replaceAll p "/[PATH]/".toList acc) trace
    let r := replaceAll memAddrPattern "0x...".toList r
    if r.length > cfg.MaxStackTraceSize then truncateWithMarker r cfg.MaxStackTraceSize
    else r

/-- ScrubField scrubs a field value.  The source always returns a nil
error, so the model returns just the value. -/
def ScrubField (cfg : ScrubberConfig) (field : Str) (value : Str) : Str :=
  if value.length = 0 then value
  else
    let maxSize :=
      if field = "stack_trace".toList then cfg.MaxStackTraceSize
      else if field = "tool_args".toList then cfg.MaxToolArgsSize
      else if field = "metadata".toList then cfg.MaxMetadataSize
      else cfg.MaxMessageSize
    if value.length > maxSize then
      if cfg.FailClosed then truncateWithMarker value maxSize
      else "[REDACTED:SIZE_LIMIT]".toList
    else value

/-! ### A model of the generic JSON value tree of encoding/json

json.Unmarshal into an empty interface produces null, booleans,
numbers, strings, arrays and string-keyed maps.  Numbers are carried
as their source token (the numeric value is never inspected by the
scrubber); maps are association lists without duplicate keys (a
later duplicate overwrites, as in a Go map). -/

inductive JVal where
  | null : JVal
  | bool (b : Bool) : JVal
  | num (lit : Str) : JVal
  | str (s : Str) : JVal
  | arr (elems : List JVal) : JVal
  | obj (fields : List (Str × JVal)) : JVal

/-- JSON whitespace. -/
def isJsonWs (c : Char) : Bool := c = ' ' || c = '\t' || c = '\n' || c = '\r'

/-- Skip JSON whitespace. -/
def jws (s : Str) : Str := s.dropWhile isJsonWs

/-- Characters that may occur in a JSON number token. -/
def isNumChar (c : Char) : Bool :=
  ('0' ≤ c && c ≤ '9') || c = '-' || c = '+' || c = '.' || c = 'e' || c = 'E'

/-- Hexadecimal digit value. -/
def hexVal (c : Char) : Nat :=
  if '0' ≤ c && c ≤ '9' then c.toNat - '0'.toNat
  else if 'a' ≤ c && c ≤ 'f' then c.toNat - 'a'.toNat + 10
  else c.toNat - 'A'.toNat + 10

/-- Parse the body of a JSON string literal (after the opening
quote), decoding escapes; fails on an invalid escape or a missing
closing quote. -/
def parseJStr : Nat → Str → Option (Str × Str)
  | 0, _ => none
  | _ + 1, [] => none
  | fuel + 1, c :: t =>
      if c = '"' then some ([], t)
      else if c = '\\' then
        match t with
        | [] => none
        | e :: t2 =>
            if e = 'u' then
              match t2 with
              | h1 :: h2 :: h3 :: h4 :: t3 =>
                  if isHexB h1 && isHexB h2 && isHexB h3 && isHexB h4 then
                    let n := ((hexVal h1 * 16 + hexVal h2) * 16 + hexVal h3) * 16 + hexVal h4
                    (parseJStr fuel t3).map fun pr =>
                      ((if h : n.isValidChar then Char.ofNatAux n h else '\u0000') :: pr.1, pr.2)
                  else none
              | _ => none
            else
              match
                (if e = '"' then some '"'
                 else if e = '\\' then some '\\'
                 else if e = '/' then some '/'
                 else if e = 'b' then some '\u0008'
                 else if e = 'f' then some '\u000c'
                 else if e = 'n' then some '\n'
                 else if e = 'r' then some '\r'
                 else if e = 't' then some '\t'
                 else none : Option Char) with
              | some d => (parseJStr fuel t2).map fun pr => (d :: pr.1, pr.2)
              | none => none
      else (parseJStr fuel t).map fun pr => (c :: pr.1, pr.2)

/-- Insert a field into an object, overwriting an earlier field of
the same key (Go map assignment). -/
def objInsert (k : Str) (v : JVal) (fl : List (Str × JVal)) : List (Str × JVal) :=
  (fl.filter fun kv => kv.1 ≠ k) ++ [(k, v)]

mutual

/-- Parse one JSON value at the head of the input (whitespace already
allowed in front). -/
def parseJVal : Nat → Str → Option (JVal × Str)
  | 0, _ => none
  | fuel + 1, s =>
      match jws s with
      | [] => none
      | c :: t =>
          if c = 'n' then
            if "ull".toList.isPrefixOf t then some (.null, t.drop 3) else none
          else if c = 't' then
            if "rue".toList.isPrefixOf t then some (.bool true, t.drop 3) else none
          else if c = 'f' then
            if "alse".toList.isPrefixOf t then some (.bool false, t.drop 4) else none
          else if c = '"' then
            (parseJStr (fuel + 1) t).map fun pr => (.str pr.1, pr.2)
          else if c = '[' then
            match jws t with
            | ']' :: t2 => some (.arr [], t2)
            | _ => parseJArr fuel t []
          else if c = '{' then
            match jws t with
            | '}' :: t2 => some (.obj [], t2)
            | _ => parseJObj fuel t []
          else if isNumChar c && c ≠ '+' && c ≠ '.' && c ≠ 'e' && c ≠ 'E' then
            some (.num ((c :: t).takeWhile isNumChar), (c :: t).dropWhile isNumChar)
          else none

/-- Parse the elements of a non-empty array (after the opening
bracket), accumulating parsed elements. -/
def parseJArr : Nat → Str → List JVal → Option (JVal × Str)
  | 0, _, _ => none
  | fuel + 1, s, acc =>
      match parseJVal fuel s with
      | none => none
      | some (v, rest) =>
          match jws rest with
          | ',' :: t => parseJArr fuel t (acc ++ [v])
          | ']' :: t => some (.arr (acc ++ [v]), t)
          | _ => none

/-- Parse the members of a non-empty object (after the opening
brace), accumulating parsed fields with Go map overwrite. -/
def parseJObj : Nat → Str → List (Str × JVal) → Option (JVal × Str)
  | 0, _, _ => none
  | fuel + 1, s, acc =>
      match jws s with
      | '"' :: t =>
          match parseJStr (fuel + 1) t with
          | none => none
          | some (k, rest) =>
              match jws rest with
              | ':' :: t2 =>
                  match parseJVal fuel t2 with
                  | none => none
                  | some (v, rest2) =>
                      match jws rest2 with
                      | ',' :: t3 => parseJObj fuel t3 (objInsert k v acc)
                      | '}' :: t3 => some (.obj (objInsert k v acc), t3)
                      | _ => none
              | _ => none
      | _ => none

end

/-- json.Unmarshal into a generic value: parse one value and require
only whitespace to follow. -/
def jsonUnmarshal (s : Str) : Option JVal :=
  match parseJVal (s.length + 1) s with
  | some (v, rest) => if jws rest = [] then some v else none
  | none => none

/-- Escape one character as json.Marshal does (with the default HTML
escaping of angle brackets and ampersands). -/
def jsonEscChar (c : Char) : Str :=
  if c = '"' then ['\\', '"']
  else if c = '\\' then ['\\', '\\']
  else if c = '\n' then ['\\', 'n']
  else if c = '\r' then ['\\', 'r']
  else if c = '\t' then ['\\', 't']
  else if c = '<' then "\\u003c".toList
  else if c = '>' then "\\u003e".toList
  else if c = '&' then "\\u0026".toList
  else if c.toNat < 32 then
    "\\u00".toList ++
      ["0123456789abcdef".toList.getD (c.toNat / 16) '0',
       "0123456789abcdef".toList.getD (c.toNat % 16) '0']
  else [c]

/-- A JSON string literal as json.Marshal writes it. -/
def jsonQuote (s : Str) : Str := '"' :: s.flatMap jsonEscChar ++ ['"']

/-- Byte-lexicographic order on strings, used by json.Marshal to sort
map keys. -/
def strLtB : Str → Str → Bool
  | [], [] => false
  | [], _ :: _ => true
  | _ :: _, [] => false
  | a :: s, b :: t => if a = b then strLtB s t else decide (a.toNat < b.toNat)

/-- Insertion into a key-sorted field list. -/
def insertByKey (kv : Str × JVal) : List (Str × JVal) → List (Str × JVal)
  | [] => [kv]
  | h :: t => if strLtB kv.1 h.1 then kv :: h :: t else h :: insertByKey kv t

/-- Sort object fields by key, as json.Marshal does for maps. -/
def sortFields (fl : List (Str × JVal)) : List (Str × JVal) :=
  fl.foldr insertByKey []

/-- Comma-separated concatenation. -/
def commaSep : List Str → Str
  | [] => []
  | [x] => x
  | x :: y :: t => x ++ ',' :: commaSep (y :: t)

/-- json.Marshal of a generic value (fuelled; every caller passes
fuel exceeding the nesting depth, and the theorems below do not
depend on the output of the fuel-exhausted branch). -/
def jsonMarshal : Nat → JVal → Str
  | 0, _ => []
  | fuel + 1, v =>
      match v with
      | .null => "null".toList
      | .bool true => "true".toList
      | .bool false => "false".toList
      | .num lit => lit
      | .str s => jsonQuote s
      | .arr l => '[' :: commaSep (l.map (jsonMarshal fuel)) ++ [']']
      | .obj fl =>
          '{' :: commaSep ((sortFields fl).map fun kv =>
            jsonQuote kv.1 ++ ':' :: jsonMarshal fuel kv.2) ++ ['}']

/-- scrubJSONValue recursively scrubs a JSON value; scrubJSONMap and
scrubJSONArray of the source are the obj and arr branches. -/
def scrubJSONValue (cfg : ScrubberConfig) : Nat → JVal → JVal
  | 0, v => v
  | fuel + 1, v =>
      match v with
      | .str s => .str (ScrubMessage cfg s)
      | .arr l => .arr (l.map (scrubJSONValue cfg fuel))
      | .obj fl =>
          .obj (fl.map fun kv =>
            if isSensitiveKey kv.1 then (kv.1, .str redactedMarker)
            else (kv.1, scrubJSONValue cfg fuel kv.2))
      | other => other

/-- The fail-closed sentinel of ScrubJSON. -/
def scrubErrorMarker : Str := "[REDACTED:SCRUB_ERROR]".toList

/-- ScrubJSON recursively scrubs sensitive data from a JSON string.
json.Marshal cannot fail on the value trees produced here, so the
marshal-error branch of the source is vacuous in the model; the
parse-error branch is modelled exactly. -/
def ScrubJSON (cfg : ScrubberConfig) (jsonStr : Str) : Str :=
  let maxSize := 16384
  match jsonUnmarshal jsonStr with
  | none => if cfg.FailClosed then scrubErrorMarker else jsonStr
  | some data =>
      let scrubbed := scrubJSONValue cfg (jsonStr.length + 1) data
      let resultStr := jsonMarshal (jsonStr.length + 1) scrubbed
      if resultStr.length > maxSize then truncateWithMarker resultStr maxSize
      else resultStr

example : jsonUnmarshal "\x7binvalid json".toList = none := rfl

example : jsonUnmarshal " true ".toList = some (.bool true) := rfl

example :
    jsonUnmarshal "\x7b\"key\":\"value\",\x7d".toList = none := rfl

/-! ### SHA-256 (crypto/sha256) and hex encoding (encoding/hex)

A direct functional transcription of FIPS 180-4, operating on lists
of byte values with 32-bit words as naturals reduced modulo 2^32. -/

/-- Reduce modulo 2^32. -/
def w32 (n : Nat) : Nat := n % 4294967296

/-- Right rotation of a 32-bit word. -/
def rotr (n x : Nat) : Nat := w32 ((x >>> n) ||| (x <<< (32 - n)))

/-- Bitwise complement of a 32-bit word. -/
def compl32 (x : Nat) : Nat := x ^^^ 4294967295

/-- The SHA-256 round constants. -/
def shaK : List Nat :=
  [0x428A2F98, 0x71374491, 0xB5C0FBCF, 0xE9B5DBA5, 0x3956C25B, 0x59F111F1,
   0x923F82A4, 0xAB1C5ED5, 0xD807AA98, 0x12835B01, 0x243185BE, 0x550C7DC3,
   0x72BE5D74, 0x80DEB1FE, 0x9BDC06A7, 0xC19BF174, 0xE49B69C1, 0xEFBE4786,
   0x0FC19DC6, 0x240CA1CC, 0x2DE92C6F, 0x4A7484AA, 0x5CB0A9DC, 0x76F988DA,
   0x983E5152, 0xA831C66D, 0xB00327C8, 0xBF597FC7, 0xC6E00BF3, 0xD5A79147,
   0x06CA6351, 0x14292967, 0x27B70A85, 0x2E1B2138, 0x4D2C6DFC, 0x53380D13,
   0x650A7354, 0x766A0ABB, 0x81C2C92E, 0x92722C85, 0xA2BFE8A1, 0xA81A664B,
   0xC24B8B70, 0xC76C51A3, 0xD192E819, 0xD6990624, 0xF40E3585, 0x106AA070,
   0x19A4C116, 0x1E376C08, 0x2748774C, 0x34B0BCB5, 0x391C0CB3, 0x4ED8AA4A,
   0x5B9CCA4F, 0x682E6FF3, 0x748F82EE, 0x78A5636F, 0x84C87814, 0x8CC70208,
   0x90BEFFFA, 0xA4506CEB, 0xBEF9A3F7, 0xC67178F2]

/-- The eight 32-bit hash words. -/
structure Sha256State where
  a : Nat
  b : Nat
  c : Nat
  d : Nat
  e : Nat
  f : Nat
  g : Nat
  h : Nat

/-- The SHA-256 initial hash value. -/
def shaH0 : Sha256State :=
  ⟨0x6A09E667, 0xBB67AE85, 0x3C6EF372, 0xA54FF53A,
   0x510E527F, 0x9B05688C, 0x1F83D9AB, 0x5BE0CD19⟩

/-- Small sigma 0. -/
def ssig0 (x : Nat) : Nat := rotr 7 x ^^^ rotr 18 x ^^^ (x >>> 3)

/-- Small sigma 1. -/
def ssig1 (x : Nat) : Nat := rotr 17 x ^^^ rotr 19 x ^^^ (x >>> 10)

/-- Big sigma 0. -/
def bsig0 (x : Nat) : Nat := rotr 2 x ^^^ rotr 13 x ^^^ rotr 22 x

/-- Big sigma 1. -/
def bsig1 (x : Nat) : Nat := rotr 6 x ^^^ rotr 11 x ^^^ rotr 25 x

/-- Extend the sixteen block words with n further schedule words. -/
def shaExtend (acc : List Nat) : Nat → List Nat
  | 0 => acc
  | n + 1 =>
      let len := acc.length
      let next := w32 (ssig1 (acc.getD (len - 2) 0) + acc.getD (len - 7) 0 +
        ssig0 (acc.getD (len - 15) 0) + acc.getD (len - 16) 0)
      shaExtend (acc ++ [next]) n

/-- One compression round. -/
def shaRound (st : Sha256State) (kw : Nat × Nat) : Sha256State :=
  let t1 := w32 (st.h + bsig1 st.e + ((st.e &&& st.f) ^^^ (compl32 st.e &&& st.g)) +
    kw.1 + kw.2)
  let t2 := w32 (bsig0 st.a + ((st.a &&& st.b) ^^^ (st.a &&& st.c) ^^^ (st.b &&& st.c)))
  ⟨w32 (t1 + t2), st.a, st.b, st.c, w32 (st.d + t1), st.e, st.f, st.g⟩

/-- Group bytes into big-endian 32-bit words. -/
def bytesToWords : List Nat → List Nat
  | b1 :: b2 :: b3 :: b4 :: t => (((b1 * 256 + b2) * 256 + b3) * 256 + b4) :: bytesToWords t
  | _ => []

/-- Compress one 64-byte block into the running state. -/
def shaCompress (st : Sha256State) (block : List Nat) : Sha256State :=
  let ws := shaExtend (bytesToWords block) 48
  let r := (shaK.zip ws).foldl shaRound st
  ⟨w32 (st.a + r.a), w32 (st.b + r.b), w32 (st.c + r.c), w32 (st.d + r.d),
   w32 (st.e + r.e), w32 (st.f + r.f), w32 (st.g + r.g), w32 (st.h + r.h)⟩

/-- The message length as eight big-endian bytes of the bit count. -/
def lenBE8 (bits : Nat) : List Nat :=
  [bits >>> 56 &&& 255, bits >>> 48 &&& 255, bits >>> 40 &&& 255, bits >>> 32 &&& 255,
   bits >>> 24 &&& 255, bits >>> 16 &&& 255, bits >>> 8 &&& 255, bits &&& 255]

/-- FIPS 180-4 padding. -/
def shaPad (msg : List Nat) : List Nat :=
  let padLen := (119 - msg.length % 64) % 64
  msg ++ 128 :: List.replicate padLen 0 ++ lenBE8 (msg.length * 8)

/-- Split into 64-byte blocks (fuelled; fuel is the list length,
which strictly decreases by 64 per step). -/
def chunk64 : Nat → List Nat → List (List Nat)
  | 0, _ => []
  | fuel + 1, l =>
      match l with
      | [] => []
      | _ => l.take 64 :: chunk64 fuel (l.drop 64)

/-- The four big-endian bytes of a 32-bit word. -/
def be4 (n : Nat) : List Nat := [n >>> 24 &&& 255, n >>> 16 &&& 255, n >>> 8 &&& 255, n &&& 255]

/-- The 32 digest bytes of a final state. -/
def stateBytes (st : Sha256State) : List Nat :=
  be4 st.a ++ be4 st.b ++ be4 st.c ++ be4 st.d ++ be4 st.e ++ be4 st.f ++ be4 st.g ++ be4 st.h

/-- sha256.Sum256 over a byte list. -/
def sha256Bytes (msg : List Nat) : List Nat :=
  stateBytes (((chunk64 (shaPad msg).length (shaPad msg))).foldl shaCompress shaH0)

/-- The lowercase hexadecimal digits. -/
def hexChars : Str := "0123456789abcdef".toList

/-- Two lowercase hex characters of one byte, as hex.EncodeToString
writes them. -/
def byteHex (b : Nat) : Str := [hexChars.getD (b / 16) '0', hexChars.getD (b % 16) '0']

/-- hex.EncodeToString. -/
def hexEncode (bs : List Nat) : Str := bs.flatMap byteHex

/-! ### normalizeStackTrace and Fingerprint of fingerprint.go -/

/-- FindString of the anchored funcNamePattern: the matched prefix,
or the empty string when there is no match at position zero (the
pattern cannot match the empty string). -/
def findString (r : RE) (s : Str) : Str :=
  match matchAt r (s.length + 1) none s with
  | some pr => s.take (s.length - pr.2.length)
  | none => []

/-- The per-line loop of normalizeStackTrace, carrying the collected
frames; stops after three frames, as the source does. -/
def nstLoop : List Str → List Str → List Str
  | [], frames => frames
  | line :: rest, frames =>
      let l := trimSpace line
      if l = [] then nstLoop rest frames
      else if hasPrefixStr l "goroutine ".toList then nstLoop rest frames
      else if hasPrefixStr l "\t".toList || hasPrefixStr l "/".toList then nstLoop rest frames
      else
        let f1 := replaceAll memAddrPattern [] l
        let f2 := replaceAll offsetPattern [] f1
        let f3 :=
          match f2.findIdx? (fun c => c = '(') with
          | some i => if 0 < i then f2.take i else f2
          | none => f2
        let f4 := trimSpace f3
        if f4 = [] then nstLoop rest frames
        else
          let m := findString funcNamePattern f4
          if m = [] then nstLoop rest frames
          else
            let frames1 := frames ++ [m]
            if 3 ≤ frames1.length then frames1 else nstLoop rest frames1

/-- normalizeStackTrace extracts the first 3 function names from a
stack trace, stripping line numbers, memory addresses, and other
variable data. -/
def normalizeStackTrace (trace : Str) : List Str :=
  if trace = [] then [] else nstLoop (splitLinesGo trace) []

/-- strings.Join with the bar separator. -/
def joinBar : List Str → Str
  | [] => []
  | [x] => x
  | x :: y :: t => x ++ '|' :: joinBar (y :: t)

/-! ### The canonical error event of event.go

The Go time.Time timestamp is modelled as a natural number whose
zero value is the zero time; optional pointer-typed integers are
options.  All string fields are character lists. -/

structure SystemState where
  MemoryBytes : Int := 0
  GoroutineCount : Int := 0
  UptimeMs : Int := 0
  HostName : Str := []

structure ErrorEvent where
  EventID : Str := []
  Timestamp : Nat := 0
  Fingerprint : Str := []
  Severity : Str := []
  ErrorType : Str := []
  Message : Str := []
  StackTrace : Str := []
  Operation : Str := []
  OperationID : Str := []
  AgentName : Str := []
  ToolName : Str := []
  ToolArgs : Str := []
  ContextID : Option Nat := none
  TurnDepth : Option Int := none
  SystemState : Option SystemState := none
  TokensWasted : Option Int := none
  Metadata : List (Str × Str) := []

/-- The stable fields joined for hashing: error type, operation,
agent name, tool name, then the normalized stack frames. -/
def fingerprintInput (event : ErrorEvent) : Str :=
  joinBar ([event.ErrorType, event.Operation, event.AgentName, event.ToolName] ++
    normalizeStackTrace event.StackTrace)

/-- Fingerprint generates a hash for grouping similar errors: the
hex encoding of the first 16 bytes of the SHA-256 digest of the
joined stable fields. -/
def Fingerprint (event : ErrorEvent) : Str :=
  hexEncode ((sha256Bytes ((fingerprintInput event).map Char.toNat)).take 16)

example :
    ScrubJSON DefaultScrubberConfig "\x7b\"token\":\"abc123\"\x7d".toList =
      "\x7b\"token\":\"[REDACTED]\"\x7d".toList := by decide

set_option maxRecDepth 4000 in
example :
    normalizeStackTrace
      "goroutine 1 [running]:\nmain.doSomething(0x1234)\n\t/app/main.go:42 +0x123\npkg.helper()\n\t/app/pkg/helper.go:20 +0x456\nruntime.main()\n\t/usr/local/go/src/runtime/proc.go:250 +0x789\nanother.function()\n\t/app/another.go:100 +0xabc".toList =
      ["main.doSomething".toList, "pkg.helper".toList, "runtime.main".toList] := by
  decide

/-! ### Collector.Record of collector.go

The two effectful inputs of Record (uuid.NewString and time.Now) are
parameters; the sink is a function from the written event to the
error returned by its Write (none models a nil Go error, over an
arbitrary error type).  Record returns the list of events passed to
the Sink Write (expressing how many Write calls happen and with which
argument) together with the value Record itself returns. -/

def Record {ε : Type} (scrubber : Option ScrubberConfig)
    (sinkWrite : ErrorEvent → Option ε) (genID : Str) (now : Nat)
    (event : ErrorEvent) : List ErrorEvent × Option ε :=
  let e1 := if event.EventID = [] then { event with EventID := genID } else event
  let e2 := if e1.Timestamp = 0 then { e1 with Timestamp := now } else e1
  let e3 :=
    match scrubber with
    | some cfg =>
        { e2 with
          Message := ScrubMessage cfg e2.Message
          StackTrace := ScrubStackTrace cfg e2.StackTrace
          Metadata := ScrubMetadata cfg e2.Metadata }
    | none => e2
  let e4 := { e3 with Fingerprint := Fingerprint e3 }
  ([e4], sinkWrite e4)

/-! ### The multi sink of sinks/multi

A child sink is modelled by the outcomes of its three operations
(Write as a function of the event).  errors.Join of a list of non-nil
errors is nil exactly when the list is empty, and otherwise one
combined error carrying the list; errors.Is on the combined error
finds exactly its members. -/

structure ChildSink (ε : Type) where
  write : ErrorEvent → Option ε
  flush : Option ε
  close : Option ε

/-- errors.Join: nil for an empty error list, otherwise the combined
error holding every collected error in order. -/
def errorsJoin {ε : Type} (errs : List ε) : Option (List ε) :=
  match errs with
  | [] => none
  | _ => some errs

/-- errors.Is against a combined error: the target is one of the
joined errors (and a nil combined error matches nothing). -/
def errorsIs {ε : Type} (joined : Option (List ε)) (target : ε) : Prop :=
  match joined with
  | none => False
  | some l => target ∈ l

/-- The per-child Write results, in the fixed order of the sink list;
every child is consulted, regardless of earlier failures. -/
def multiWriteResults {ε : Type} (sinks : List (ChildSink ε)) (event : ErrorEvent) :
    List (Option ε) :=
  sinks.map fun s => s.write event

/-- multiSink.Write: call every child Write in order, collect the
non-nil errors, and return errors.Join of them. -/
def multiWrite {ε : Type} (sinks : List (ChildSink ε)) (event : ErrorEvent) :
    Option (List ε) :=
  errorsJoin ((multiWriteResults sinks event).filterMap id)

/-- multiSink.Flush: same shape over the child Flush results. -/
def multiFlush {ε : Type} (sinks : List (ChildSink ε)) : Option (List ε) :=
  errorsJoin ((sinks.map fun s => s.flush).filterMap id)

/-- multiSink.Close: same shape over the child Close results. -/
def multiClose {ε : Type} (sinks : List (ChildSink ε)) : Option (List ε) :=
  errorsJoin ((sinks.map fun s => s.close).filterMap id)

/-! ### The async sink of sinks/async

The channel queue is a list (head = oldest, the element a receive
takes; send appends at the tail), with the configured capacity and
the closed flag.  Write is modelled as the state transformation of
one uninterleaved execution of asyncSink.Write; the value returned to
the caller is an Except, and the drop-callback invocations are
collected as the list of counts passed to the callback. -/

structure AsyncState where
  queue : List ErrorEvent
  capacity : Nat
  closed : Bool

/-- dropOldestAndEnqueue: receive (drop) one event if the queue is
not empty, reporting the drop with count 1; then try once more to
send, and if the queue is still full drop the new event instead,
reporting again with count 1. -/
def dropOldestAndEnqueue (queue : List ErrorEvent) (capacity : Nat)
    (event : ErrorEvent) : List ErrorEvent × List Nat :=
  let step1 :=
    match queue with
    | [] => (queue, ([] : List Nat))
    | _ :: t => (t, [1])
  if step1.1.length < capacity then (step1.1 ++ [event], step1.2)
  else (step1.1, step1.2 ++ [1])

/-- asyncSink.Write: fail with the closed error when closed;
otherwise try a non-blocking send, and on a full queue fall back to
dropOldestAndEnqueue.  Returns the new queue and drop-callback counts
on success. -/
def asyncWrite (st : AsyncState) (event : ErrorEvent) :
    Except Str (List ErrorEvent × List Nat) :=
  if st.closed then .error "async sink is closed".toList
  else if st.queue.length < st.capacity then .ok (st.queue ++ [event], [])
  else .ok (dropOldestAndEnqueue st.queue st.capacity event)

/-! ### The operation-history ring buffer of operation_history.go -/

structure OperationHistoryBuffer (α : Type) where
  records : List α
  maxSize : Nat
  writeIdx : Nat

/-- Add appends a record, evicting oldest if buffer is full. -/
def bufAdd {α : Type} (b : OperationHistoryBuffer α) (record : α) :
    OperationHistoryBuffer α :=
  if b.records.length < b.maxSize then { b with records := b.records ++ [record] }
  else
    { b with
      records := b.records.set b.writeIdx record
      writeIdx := (b.writeIdx + 1) % b.maxSize }

/-- GetAll returns records in chronological order (oldest first),
rotating at the write index when the buffer is full. -/
def bufGetAll {α : Type} (b : OperationHistoryBuffer α) : List α :=
  if b.records.length = 0 then []
  else if b.records.length < b.maxSize then b.records
  else b.records.drop b.writeIdx ++ b.records.take b.writeIdx

/-- A fresh buffer of the given capacity, as constructed by the
enrichment store and the tests. -/
def bufNew (α : Type) (maxSize : Nat) : OperationHistoryBuffer α :=
  ⟨[], maxSize, 0⟩

/-- The buffer after a sequence of Add calls, oldest first. -/
def bufAddAll {α : Type} (b : OperationHistoryBuffer α) (l : List α) :
    OperationHistoryBuffer α :=
  l.foldl bufAdd b

example : bufGetAll (bufAddAll (bufNew Nat 3) [1, 2, 3, 4, 5]) = [3, 4, 5] := by decide

/-! ## Claim theorems and their supporting lemmas -/

/-! ### Ring buffer (claim C6) -/

/-- The reachable-state invariant of the ring buffer after the
records of xs have been added in order to a fresh buffer of capacity
N: before wrap-around the records list is exactly xs with the write
cursor at zero; afterwards the records list is full and rotating it
at the write cursor recovers the last N records of xs in insertion
order. -/
def bufInv {α : Type} (N : Nat) (xs : List α) (b : OperationHistoryBuffer α) : Prop :=
  b.maxSize = N ∧
    ((xs.length < N ∧ b.records = xs ∧ b.writeIdx = 0) ∨
     (N ≤ xs.length ∧ b.records.length = N ∧ b.writeIdx = xs.length % N ∧
       b.records.drop b.writeIdx ++ b.records.take b.writeIdx =
         xs.drop (xs.length - N)))

/-- Overwriting the slot at the rotation cursor and advancing the
cursor modulo the length drops the oldest rotated element and appends
the new one. -/
theorem rot_set {α : Type} (R : List α) (w : Nat) (x : α) (hw : w < R.length) :
    (R.set w x).drop ((w + 1) % R.length) ++ (R.set w x).take ((w + 1) % R.length) =
      (R.drop w ++ R.take w).drop 1 ++ [x] := by
  have hset : R.set w x = R.take w ++ x :: R.drop (w + 1) :=
    List.set_eq_take_cons_drop x hw
  have hlt : (R.take w).length = w := by simp; omega
  have hdlen : (R.drop w).length = R.length - w := by simp
  have hone : w + 1 - w = 1 := by omega
  have hsplit : (R.drop w ++ R.take w).drop 1 = R.drop (w + 1) ++ R.take w := by
    rw [List.drop_append_eq_append_drop]
    have h1 : 1 - (R.drop w).length = 0 := by omega
    rw [h1, List.drop_drop, List.drop_zero]
  rw [hsplit]
  by_cases hcase : w + 1 < R.length
  · have hmodeq : (w + 1) % R.length = w + 1 := Nat.mod_eq_of_lt hcase
    rw [hmodeq, hset]
    have hdr : (R.take w ++ x :: R.drop (w + 1)).drop (w + 1) = R.drop (w + 1) := by
      rw [List.drop_append_eq_append_drop, hlt,
        List.drop_eq_nil_of_le (le_of_eq_of_le hlt (by omega)), hone]
      simp
    have htk : (R.take w ++ x :: R.drop (w + 1)).take (w + 1) = R.take w ++ [x] := by
      rw [List.take_append_eq_append_take, hlt,
        List.take_of_length_le (le_of_eq_of_le hlt (by omega)), hone]
      simp
    rw [hdr, htk, List.append_assoc]
  · have hw1 : w + 1 = R.length := by omega
    rw [hw1, Nat.mod_self, List.drop_zero, List.take_zero, List.append_nil, hset]
    have hdropN : R.drop (w + 1) = [] := List.drop_eq_nil_of_le (by omega)
    rw [hdropN]
    simp

theorem bufInv_nil {α : Type} (N : Nat) (hN : 0 < N) : bufInv N [] (bufNew α N) := by
  refine ⟨rfl, Or.inl ⟨by simpa using hN, rfl, rfl⟩⟩

theorem bufInv_add {α : Type} {N : Nat} {xs : List α} {b : OperationHistoryBuffer α}
    (hN : 0 < N) (h : bufInv N xs b) (x : α) : bufInv N (xs ++ [x]) (bufAdd b x) := by
  obtain ⟨hmax, h | h⟩ := h
  · obtain ⟨hlt, hrec, hidx⟩ := h
    have hlen : b.records.length < b.maxSize := by rw [hrec, hmax]; exact hlt
    have hadd : bufAdd b x = { b with records := b.records ++ [x] } := by
      unfold bufAdd; rw [if_pos hlen]
    rw [hadd]
    refine ⟨hmax, ?_⟩
    by_cases hcase : xs.length + 1 < N
    · exact Or.inl ⟨by simpa using hcase, by simp [hrec], hidx⟩
    · have heq : xs.length + 1 = N := by omega
      refine Or.inr ⟨by simp; omega, by simp [hrec]; omega, ?_, ?_⟩
      · simp only [List.length_append, List.length_cons, List.length_nil]
        rw [hidx, heq, Nat.mod_self]
      · have hz : (xs ++ [x]).length - N = 0 := by simp; omega
        rw [hz, List.drop_zero, hidx, List.drop_zero, List.take_zero, List.append_nil, hrec]
  · obtain ⟨hge, hlen, hidx, hrot⟩ := h
    have hnotlt : ¬ b.records.length < b.maxSize := by rw [hlen, hmax]; omega
    have hwlt : b.writeIdx < N := by rw [hidx]; exact Nat.mod_lt _ hN
    have hset : b.records.set b.writeIdx x =
        b.records.take b.writeIdx ++ x :: b.records.drop (b.writeIdx + 1) := by
      exact List.set_eq_take_cons_drop x (by omega)
    have hadd : bufAdd b x =
        { records := b.records.set b.writeIdx x, maxSize := b.maxSize,
          writeIdx := (b.writeIdx + 1) % b.maxSize } := by
      unfold bufAdd; rw [if_neg hnotlt]
    rw [hadd]
    refine ⟨hmax, Or.inr ⟨by simp; omega, ?_, ?_, ?_⟩⟩
    · simp [hlen]
    · simp only [List.length_append, List.length_cons, List.length_nil, hmax, hidx]
      exact (Nat.mod_modEq xs.length N).add_right 1
    · -- the rotation identity after an overwrite at the cursor
      show (b.records.set b.writeIdx x).drop ((b.writeIdx + 1) % b.maxSize) ++
          (b.records.set b.writeIdx x).take ((b.writeIdx + 1) % b.maxSize) =
          (xs ++ [x]).drop ((xs ++ [x]).length - N)
      have hmod : (b.writeIdx + 1) % b.maxSize = (b.writeIdx + 1) % b.records.length := by
        rw [hlen, hmax]
      rw [hmod, rot_set b.records b.writeIdx x (by omega), hrot]
      have hright : (xs ++ [x]).drop ((xs ++ [x]).length - N) =
          xs.drop (xs.length + 1 - N) ++ [x] := by
        rw [List.drop_append_eq_append_drop]
        have h1 : (xs ++ [x]).length - N - xs.length = 0 := by simp; omega
        have h2 : (xs ++ [x]).length - N = xs.length + 1 - N := by simp
        rw [h1, h2, List.drop_zero]
      rw [hright, List.drop_drop]
      have h3 : xs.length - N + 1 = xs.length + 1 - N := by omega
      rw [h3]

theorem bufInv_addAll {α : Type} (N : Nat) (hN : 0 < N) (xs : List α) :
    bufInv N xs (bufAddAll (bufNew α N) xs) := by
  induction xs using List.reverseRecOn with
  | nil => exact bufInv_nil N hN
  | append_singleton ys y ih =>
      have : bufAddAll (bufNew α N) (ys ++ [y]) = bufAdd (bufAddAll (bufNew α N) ys) y := by
        simp [bufAddAll]
      rw [this]
      exact bufInv_add hN ih y

theorem bufGetAll_of_inv {α : Type} {N : Nat} {xs : List α} {b : OperationHistoryBuffer α}
    (hN : 0 < N) (h : bufInv N xs b) : bufGetAll b = xs.drop (xs.length - N) := by
  obtain ⟨hmax, h | h⟩ := h
  · obtain ⟨hlt, hrec, _⟩ := h
    have hsub : xs.length - N = 0 := by omega
    rw [hsub, List.drop_zero]
    by_cases hnil : b.records.length = 0
    · have : xs = [] := by rw [← hrec]; exact List.eq_nil_of_length_eq_zero hnil
      simp [bufGetAll, hnil, this]
    · have hlt2 : b.records.length < b.maxSize := by rw [hrec, hmax]; exact hlt
      unfold bufGetAll
      rw [if_neg hnil, if_pos hlt2]
      exact hrec
  · obtain ⟨hge, hlen, _, hrot⟩ := h
    have h0 : ¬ b.records.length = 0 := by omega
    have h1 : ¬ b.records.length < b.maxSize := by rw [hlen, hmax]; omega
    simp only [bufGetAll, h0, if_false, h1, if_false]
    exact hrot


/-- C6: for a ring buffer of capacity 3, adding records tagged 1..5
in order makes GetAll return exactly [3,4,5]; in general, for any
positive capacity N, GetAll after any sequence of Add calls on a
fresh buffer returns exactly the last N added records in insertion
(chronological, oldest-first) order, the result is the empty list
when nothing was added, and neither the held-record count nor the
GetAll length ever exceeds the capacity.  (A Go nil versus empty
slice distinction does not exist for Lean lists; GetAll of the
empty buffer is the explicit empty list, as in the source.) -/
theorem C6_ring_buffer_fifo (α : Type) (N : Nat) (xs : List α) (hN : 0 < N) :
    bufGetAll (bufAddAll (bufNew α N) xs) = xs.drop (xs.length - N) ∧
    (bufGetAll (bufAddAll (bufNew α N) xs)).length ≤ N ∧
    (xs = [] → bufGetAll (bufAddAll (bufNew α N) xs) = []) ∧
    (bufAddAll (bufNew α N) xs).records.length ≤ N := by
  have hinv := bufInv_addAll (α := α) N hN xs
  have hget := bufGetAll_of_inv hN hinv
  refine ⟨hget, ?_, ?_, ?_⟩
  · rw [hget]
    simp
    omega
  · intro h
    subst h
    simpa using hget
  · obtain ⟨hmax, h | h⟩ := hinv
    · obtain ⟨hlt, hrec, _⟩ := h
      rw [hrec]
      omega
    · omega

/-- Witness for C6: the concrete capacity-3 scenario of the claim,
obtained by applying the theorem at N = 3 and records 1..5. -/
theorem C6_ring_buffer_fifo_witness :
    bufGetAll (bufAddAll (bufNew Nat 3) [1, 2, 3, 4, 5]) = [3, 4, 5] :=
  (C6_ring_buffer_fifo Nat 3 [1, 2, 3, 4, 5] (by decide)).1.trans (by decide)

/-- A member of the collected error list is found by errors.Is in the
combined error of errors.Join. -/
theorem errorsIs_join {ε : Type} {errs : List ε} {e : ε} (h : e ∈ errs) :
    errorsIs (errorsJoin errs) e := by
  unfold errorsJoin errorsIs
  match errs, h with
  | x :: t, h => exact h

/-- C5: every child sink is consulted in the fixed list order with
no short-circuiting (the collected error list is computed from every
child Write result, so any error a child returns - at any position,
before or after other failures - is found by errors.Is in the
combined error); when every child succeeds the combined error is
nil; and with zero children Write, Flush and Close all succeed as
no-ops. -/
theorem C5_multi_sink_aggregation (ε : Type) (sinks : List (ChildSink ε))
    (event : ErrorEvent) :
    (multiWrite sinks event =
      errorsJoin ((sinks.map fun s => s.write event).filterMap id)) ∧
    (∀ i : Fin sinks.length, ∀ err : ε, (sinks.get i).write event = some err →
      errorsIs (multiWrite sinks event) err) ∧
    ((∀ s ∈ sinks, s.write event = none) → multiWrite sinks event = none) ∧
    (multiWrite ([] : List (ChildSink ε)) event = none ∧
      multiFlush ([] : List (ChildSink ε)) = none ∧
      multiClose ([] : List (ChildSink ε)) = none) := by
  refine ⟨rfl, ?_, ?_, rfl, rfl, rfl⟩
  · intro i err herr
    have hmem : some err ∈ sinks.map fun s => s.write event := by
      rw [← herr]
      exact List.mem_map_of_mem _ (List.get_mem sinks i.1 i.2)
    have hmem2 : err ∈ (sinks.map fun s => s.write event).filterMap id := by
      rw [List.mem_filterMap]
      exact ⟨some err, hmem, rfl⟩
    exact errorsIs_join hmem2
  · intro hall
    have hnil : (sinks.map fun s => s.write event).filterMap id = [] := by
      rw [List.filterMap_eq_nil_iff]
      intro o ho
      obtain ⟨s, hs, rfl⟩ := List.mem_map.mp ho
      simp [hall s hs]
    unfold multiWrite multiWriteResults errorsJoin
    rw [hnil]

/-- Witness for C5: a failing first child and a succeeding second
child; the combined error of Write still finds the first error and
every child was consulted. -/
theorem C5_multi_sink_aggregation_witness :
    errorsIs (multiWrite
      [⟨fun _ => some 7, none, none⟩, (⟨fun _ => none, none, none⟩ : ChildSink Nat)] {})
      7 :=
  (C5_multi_sink_aggregation Nat
    [⟨fun _ => some 7, none, none⟩, ⟨fun _ => none, none, none⟩] {}).2.1
    ⟨0, by decide⟩ 7 rfl

/-- C4: asyncSink.Write on a closed sink fails immediately with the
closed error and enqueues nothing; on an open sink it never returns
an error: with free space it simply enqueues, and with a full queue
it evicts exactly the oldest queued item (one drop-callback
invocation with count 1) and enqueues the new item.  The final
conjunct describes dropOldestAndEnqueue on an arbitrary queue state
(as seen under a racing drain): when the retry after the eviction
still finds the queue full, the new item is dropped instead and the
drop callback is invoked a second time, again with count 1; none of
this is ever surfaced as an error. -/
theorem C4_async_write_eviction (st : AsyncState) (event : ErrorEvent)
    (hcap : 0 < st.capacity) (hlen : st.queue.length ≤ st.capacity) :
    (st.closed = true → asyncWrite st event = .error "async sink is closed".toList) ∧
    (st.closed = false →
      (st.queue.length < st.capacity →
        asyncWrite st event = .ok (st.queue ++ [event], [])) ∧
      (st.queue.length = st.capacity →
        asyncWrite st event = .ok (st.queue.tail ++ [event], [1]))) ∧
    (∀ q0 : List ErrorEvent, ∀ cap : Nat, q0 ≠ [] →
      (q0.tail.length < cap →
        dropOldestAndEnqueue q0 cap event = (q0.tail ++ [event], [1])) ∧
      (¬ q0.tail.length < cap →
        dropOldestAndEnqueue q0 cap event = (q0.tail, [1, 1]))) := by
  refine ⟨?_, ?_, ?_⟩
  · intro hclosed
    unfold asyncWrite
    rw [if_pos hclosed]
  · intro hopen
    constructor
    · intro hfree
      unfold asyncWrite
      rw [if_neg (by rw [hopen]; exact Bool.false_ne_true), if_pos hfree]
    · intro hfull
      have hnotlt : ¬ st.queue.length < st.capacity := by omega
      obtain ⟨x, t, hq⟩ : ∃ x t, st.queue = x :: t := by
        cases hq : st.queue with
        | nil => rw [hq] at hfull; simp at hfull; omega
        | cons x t => exact ⟨x, t, rfl⟩
      have htlen : t.length < st.capacity := by
        rw [hq] at hfull
        simp at hfull
        omega
      have hd : dropOldestAndEnqueue (x :: t) st.capacity event =
          ((x :: t).tail ++ [event], [1]) := by
        show (if t.length < st.capacity then (t ++ [event], [1])
          else (t, [1] ++ [1])) = ((x :: t).tail ++ [event], [1])
        rw [if_pos htlen]
        rfl
      unfold asyncWrite
      rw [if_neg (by rw [hopen]; exact Bool.false_ne_true), if_neg hnotlt, hq, hd]
  · intro q0 cap hne
    cases q0 with
    | nil => exact absurd rfl hne
    | cons x t =>
        constructor
        · intro hfree
          simp only [List.tail_cons] at hfree ⊢
          show (if t.length < cap then (t ++ [event], [1]) else (t, [1] ++ [1])) =
            (t ++ [event], [1])
          rw [if_pos hfree]
        · intro hfull
          simp only [List.tail_cons] at hfull ⊢
          show (if t.length < cap then (t ++ [event], [1]) else (t, [1] ++ [1])) =
            (t, [1, 1])
          rw [if_neg hfull]
          rfl

/-- Witness for C4: a closed sink rejects, an open one-slot sink
enqueues, and a full open two-slot sink evicts the oldest of its two
queued events. -/
theorem C4_async_write_eviction_witness :
    asyncWrite ⟨[], 1, true⟩ {} = .error "async sink is closed".toList ∧
    asyncWrite ⟨[], 1, false⟩ {} = .ok ([{}], []) ∧
    asyncWrite ⟨[{ EventID := ['a'] }, { EventID := ['b'] }], 2, false⟩ {} =
      .ok ([{ EventID := ['b'] }, {}], [1]) := by
  refine ⟨(C4_async_write_eviction ⟨[], 1, true⟩ {} (by decide) (by decide)).1 rfl,
    ((C4_async_write_eviction ⟨[], 1, false⟩ {} (by decide) (by decide)).2.1 rfl).1
      (by decide),
    ((C4_async_write_eviction ⟨[{ EventID := ['a'] }, { EventID := ['b'] }], 2, false⟩ {}
      (by decide) (by decide)).2.1 rfl).2 (by decide)⟩


/-- The fingerprint only reads the error type, operation, agent
name, tool name and stack trace, so overwriting the Fingerprint
field does not change it. -/
theorem fingerprint_set_fingerprint (e : ErrorEvent) (fp : Str) :
    Fingerprint { e with Fingerprint := fp } = Fingerprint e := rfl

/-- C2: Record assigns EventID exactly when it is empty and
Timestamp exactly when it is zero (a pre-set timestamp is kept
unchanged); with a configured scrubber the written event carries the
scrubbed Message, StackTrace and Metadata (and without one the
originals); the Fingerprint of the written event is recomputed from
the post-scrub event itself; the sink Write is called exactly once,
with that final event; and Record returns exactly the error the
sink Write returned. -/
theorem C2_record_contract (ε : Type) (scr : Option ScrubberConfig)
    (sinkWrite : ErrorEvent → Option ε) (genID : Str) (now : Nat) (event : ErrorEvent) :
    ∃ efinal : ErrorEvent,
      Record scr sinkWrite genID now event = ([efinal], sinkWrite efinal) ∧
      efinal.EventID = (if event.EventID = [] then genID else event.EventID) ∧
      efinal.Timestamp = (if event.Timestamp = 0 then now else event.Timestamp) ∧
      (∀ cfg : ScrubberConfig, scr = some cfg →
        efinal.Message = ScrubMessage cfg event.Message ∧
        efinal.StackTrace = ScrubStackTrace cfg event.StackTrace ∧
        efinal.Metadata = ScrubMetadata cfg event.Metadata) ∧
      (scr = none → efinal.Message = event.Message ∧
        efinal.StackTrace = event.StackTrace ∧ efinal.Metadata = event.Metadata) ∧
      efinal.Fingerprint = Fingerprint efinal := by
  unfold Record
  cases scr with
  | none =>
      refine ⟨_, rfl, ?_, ?_, ?_, ?_, rfl⟩
      · by_cases h1 : event.EventID = [] <;> by_cases h2 : event.Timestamp = 0 <;>
          simp [h1, h2]
      · by_cases h1 : event.EventID = [] <;> by_cases h2 : event.Timestamp = 0 <;>
          simp [h1, h2]
      · intro cfg h
        exact Option.noConfusion h
      · intro _
        refine ⟨?_, ?_, ?_⟩ <;>
          (by_cases h1 : event.EventID = [] <;> by_cases h2 : event.Timestamp = 0 <;>
            simp [h1, h2])
  | some cfg0 =>
      refine ⟨_, rfl, ?_, ?_, ?_, ?_, rfl⟩
      · by_cases h1 : event.EventID = [] <;> by_cases h2 : event.Timestamp = 0 <;>
          simp [h1, h2]
      · by_cases h1 : event.EventID = [] <;> by_cases h2 : event.Timestamp = 0 <;>
          simp [h1, h2]
      · intro cfg h
        injection h with h
        subst h
        refine ⟨?_, ?_, ?_⟩ <;>
          (by_cases h1 : event.EventID = [] <;> by_cases h2 : event.Timestamp = 0 <;>
            simp [h1, h2])
      · intro h
        exact Option.noConfusion h

/-- Witness for C2: applying the contract at a concrete event with an
empty EventID, a zero Timestamp and no scrubber. -/
theorem C2_record_contract_witness :
    ∃ efinal : ErrorEvent,
      Record (ε := Nat) none (fun _ => some 3) ['g'] 7 { Message := ['m'] } =
        ([efinal], some 3) ∧
      efinal.EventID = ['g'] ∧ efinal.Timestamp = 7 ∧ efinal.Message = ['m'] := by
  obtain ⟨e, h, hid, hts, -, hnone, -⟩ :=
    C2_record_contract Nat none (fun _ => some 3) ['g'] 7 { Message := ['m'] }
  exact ⟨e, h, by simpa using hid, by simpa using hts, by simpa using (hnone rfl).1⟩


/-! ### ScrubJSON bounds and fail-closed behavior (claims C10 and C1) -/

/-- Truncation to a limit below the current length lands at or below
the limit. -/
theorem truncateWithMarker_le {s : Str} {m : Nat} (h : m < s.length) :
    (truncateWithMarker s m).length ≤ m := by
  unfold truncateWithMarker
  rw [if_neg (by omega)]
  by_cases hm : m ≤ truncMarker.length
  · rw [if_pos hm]
    simp
  · rw [if_neg hm]
    have : truncMarker.length = 14 := by decide
    simp [this] at hm ⊢
    omega

/-- C10: for every input that parses as JSON and every configuration,
the ScrubJSON output is at most 16384 characters long; the
post-serialization bound is the fixed constant 16384 of the source,
independent of every configured field maximum. -/
theorem C10_scrubjson_fixed_bound (cfg : ScrubberConfig) (s : Str) (v : JVal)
    (hparse : jsonUnmarshal s = some v) :
    (ScrubJSON cfg s).length ≤ 16384 := by
  unfold ScrubJSON
  rw [hparse]
  dsimp only
  generalize jsonMarshal (s.length + 1) (scrubJSONValue cfg (s.length + 1) v) = r
  by_cases hlen : r.length > 16384
  · rw [if_pos hlen]
    exact truncateWithMarker_le (by omega)
  · rw [if_neg hlen]
    omega

/-- Witness for C10: the four-character input true parses, and its
scrubbed serialization is within the bound. -/
theorem C10_scrubjson_fixed_bound_witness :
    (ScrubJSON DefaultScrubberConfig "true".toList).length ≤ 16384 :=
  C10_scrubjson_fixed_bound DefaultScrubberConfig "true".toList (.bool true) rfl

/-- C1 as stated is false on the code: with FailClosed disabled,
ScrubJSON returns the raw malformed input rather than the sentinel. -/
theorem C1_counterexample_failopen_returns_raw :
    ScrubJSON { DefaultScrubberConfig with FailClosed := false } "\x7binvalid".toList =
      "\x7binvalid".toList ∧
    ScrubJSON { DefaultScrubberConfig with FailClosed := false } "\x7binvalid".toList ≠
      scrubErrorMarker := by
  constructor
  · rfl
  · decide

/-- C1 (amended): when parsing the input as JSON fails, ScrubJSON
returns the fixed sentinel whenever FailClosed is set (the default),
and returns the raw input when FailClosed is disabled; the sentinel
behavior therefore depends on the FailClosed toggle rather than
holding for every configuration.  (Re-serialization of the scrubbed
value tree cannot fail, so the parse failure is the only error
path.) -/
theorem C1_scrubjson_fail_closed (cfg : ScrubberConfig) (s : Str)
    (hparse : jsonUnmarshal s = none) :
    (cfg.FailClosed = true → ScrubJSON cfg s = scrubErrorMarker) ∧
    (cfg.FailClosed = false → ScrubJSON cfg s = s) := by
  unfold ScrubJSON
  rw [hparse]
  constructor
  · intro h
    rw [h]
    rfl
  · intro h
    rw [h]
    rfl

/-- Witness for C1: the malformed inputs of the source test suite,
under the default (fail-closed) configuration. -/
theorem C1_scrubjson_fail_closed_witness :
    ScrubJSON DefaultScrubberConfig "\x7binvalid json".toList = scrubErrorMarker :=
  (C1_scrubjson_fail_closed DefaultScrubberConfig "\x7binvalid json".toList rfl).1 rfl

/-! ### Fingerprint shape (claim C7) -/

theorem hexChars_getD_mem (n : Nat) : hexChars.getD n '0' ∈ hexChars := by
  by_cases h : n < hexChars.length
  · have h16 : n < 16 := by simpa [hexChars] using h
    interval_cases n <;> decide
  · have : hexChars.getD n '0' = '0' := by
      unfold List.getD
      rw [List.get?_eq_none.mpr (by omega)]
      rfl
    rw [this]
    decide

theorem byteHex_mem {c : Char} {b : Nat} (h : c ∈ byteHex b) : c ∈ hexChars := by
  unfold byteHex at h
  rw [List.mem_cons, List.mem_cons] at h
  rcases h with h | h | h
  · rw [h]
    exact hexChars_getD_mem _
  · rw [h]
    exact hexChars_getD_mem _
  · exact absurd h (List.not_mem_nil c)

theorem hexEncode_length (bs : List Nat) : (hexEncode bs).length = 2 * bs.length := by
  induction bs with
  | nil => rfl
  | cons b t ih =>
      unfold hexEncode at ih ⊢
      simp [byteHex, ih]
      omega

theorem hexEncode_mem {c : Char} {bs : List Nat} (h : c ∈ hexEncode bs) : c ∈ hexChars := by
  unfold hexEncode at h
  rw [List.mem_flatMap] at h
  obtain ⟨b, _, hc⟩ := h
  exact byteHex_mem hc

theorem sha256Bytes_length (msg : List Nat) : (sha256Bytes msg).length = 32 := by
  unfold sha256Bytes stateBytes be4
  simp

/-- C7: for every event - including one with no stack trace and
every classification field empty - the fingerprint is exactly 32
characters, each a lowercase hexadecimal digit, hence non-empty; and
the function is pure, so equal events always receive equal
fingerprints. -/
theorem C7_fingerprint_shape (event : ErrorEvent) :
    (Fingerprint event).length = 32 ∧
    (∀ c ∈ Fingerprint event, c ∈ hexChars) ∧
    Fingerprint event ≠ [] ∧
    (∀ event2 : ErrorEvent, event = event2 → Fingerprint event = Fingerprint event2) := by
  have hlen : (Fingerprint event).length = 32 := by
    unfold Fingerprint
    rw [hexEncode_length, List.length_take, sha256Bytes_length]
    decide
  refine ⟨hlen, fun c hc => hexEncode_mem hc, ?_, fun e2 he => he ▸ rfl⟩
  intro hnil
  rw [hnil] at hlen
  exact absurd hlen (by decide)

/-! ### ScrubMessage toggles (claim C9) -/

/-- C9: disabling ScrubMessages makes ScrubMessage the identity on
every input; empty input is returned unchanged under every
configuration; and size truncation is unaffected by that flag: the
other field scrubbers (ScrubField, ScrubStackTrace) ignore
ScrubMessages entirely, and an input longer than MaxMessageSize is
still truncated by the (fail-closed) field scrubber. -/
theorem C9_scrub_disabled_identity (cfg : ScrubberConfig) (msg : Str) (value : Str) :
    (cfg.ScrubMessages = false → ScrubMessage cfg msg = msg) ∧
    ScrubMessage cfg [] = [] ∧
    (∀ b fld v, ScrubField { cfg with ScrubMessages := b } fld v = ScrubField cfg fld v) ∧
    (∀ b t, ScrubStackTrace { cfg with ScrubMessages := b } t = ScrubStackTrace cfg t) ∧
    (cfg.FailClosed = true → cfg.MaxMessageSize < value.length →
      ScrubField cfg "message".toList value = truncateWithMarker value cfg.MaxMessageSize) := by
  refine ⟨?_, ?_, fun b fld v => rfl, fun b t => rfl, ?_⟩
  · intro h
    unfold ScrubMessage
    rw [h]
    rfl
  · unfold ScrubMessage
    by_cases h : cfg.ScrubMessages
    · rw [h]
      simp only [Bool.not_true, Bool.false_eq_true, if_false]
      rw [if_neg (by simp)]
      decide
    · simp only [Bool.not_eq_true] at h
      rw [h]
      rfl
  · intro hfc hlen
    unfold ScrubField
    have hne : ¬ value.length = 0 := by omega
    rw [if_neg hne]
    show (if value.length > cfg.MaxMessageSize then
        (if cfg.FailClosed then truncateWithMarker value cfg.MaxMessageSize
         else "[REDACTED:SIZE_LIMIT]".toList)
      else value) = truncateWithMarker value cfg.MaxMessageSize
    rw [if_pos hlen, if_pos hfc]

/-- Witness for C9: a concrete secret-bearing message is returned
verbatim once ScrubMessages is disabled, and an oversized value is
still truncated. -/
theorem C9_scrub_disabled_identity_witness :
    ScrubMessage { DefaultScrubberConfig with ScrubMessages := false }
      "api_key=secret123".toList = "api_key=secret123".toList ∧
    ScrubField { DefaultScrubberConfig with MaxMessageSize := 4 } "message".toList
      "123456".toList = truncateWithMarker "123456".toList 4 :=
  ⟨(C9_scrub_disabled_identity { DefaultScrubberConfig with ScrubMessages := false }
      "api_key=secret123".toList []).1 rfl,
   (C9_scrub_disabled_identity { DefaultScrubberConfig with MaxMessageSize := 4 } []
      "123456".toList).2.2.2.2 rfl (by decide)⟩

/-! ### Scan-stepping machinery for ReplaceAllString proofs -/

/-- The match context character after scanning past P. -/
def prevAfter (prev : Option Char) (P : Str) : Option Char :=
  P.foldl (fun _ c => some c) prev

/-- One skip step of the scan. -/
theorem scanF_skip (r : RE) (repl : Str) (f : Nat) (prev : Option Char) (c : Char)
    (t : Str) (h : matchAt r (f + 1) prev (c :: t) = none) :
    scanF r repl (f + 1) prev (c :: t) = c :: scanF r repl f (some c) t := by
  simp only [scanF, h]

/-- One replacement step of the scan. -/
theorem scanF_match (r : RE) (repl : Str) (f : Nat) (prev p1 : Option Char)
    (s rest : Str) (h : matchAt r (f + 1) prev s = some (p1, rest))
    (hlt : rest.length < s.length) :
    scanF r repl (f + 1) prev s = repl ++ scanF r repl f p1 rest := by
  simp only [scanF, h, if_pos hlt]

/-- No preferred match at any scan position along the prefix P (with
the exact fuels the scan uses, ending with fuel f + 1 at the start of
the remainder t). -/
def nmAlong (r : RE) (f : Nat) (t : Str) : Str → Option Char → Prop
  | [], _ => True
  | c :: P, prev =>
      matchAt r (P.length + f + 2) prev (c :: (P ++ t)) = none ∧
        nmAlong r f t P (some c)

/-- The scan copies a match-free prefix verbatim. -/
theorem scanF_skip_front (r : RE) (repl : Str) :
    ∀ (P : Str) (f : Nat) (prev : Option Char) (t : Str), nmAlong r f t P prev →
    scanF r repl (P.length + f + 1) prev (P ++ t) =
      P ++ scanF r repl (f + 1) (prevAfter prev P) t := by
  intro P
  induction P with
  | nil =>
      intro f prev t _
      have h0 : ([] : Str).length + f + 1 = f + 1 := by simp
      rw [h0]
      rfl
  | cons c P ih =>
      intro f prev t hnm
      obtain ⟨h1, h2⟩ := hnm
      have hlen : (c :: P).length + f + 1 = (P.length + f + 1) + 1 := by
        simp
        omega
      rw [hlen]
      have hstep := scanF_skip r repl (P.length + f + 1) prev c (P ++ t) (by
        have : P.length + f + 1 + 1 = P.length + f + 2 := by omega
        rw [this]
        exact h1)
      rw [List.cons_append, hstep, ih f (some c) t h2]
      rfl

/-- Match-freeness along a prefix follows from a per-character
fail-fast property of the pattern. -/
theorem nmAlong_of_failfast (r : RE) (g : Char → Prop)
    (hg : ∀ (fuel : Nat) (prev : Option Char) (c : Char) (t2 : Str), g c →
      matchAt r fuel prev (c :: t2) = none) :
    ∀ (P : Str) (f : Nat) (t : Str) (prev : Option Char), (∀ c ∈ P, g c) →
      nmAlong r f t P prev := by
  intro P
  induction P with
  | nil => intro f t prev _; trivial
  | cons c P ih =>
      intro f t prev hall
      exact ⟨hg _ _ _ _ (hall c (List.mem_cons_self c P)),
        ih f t (some c) fun d hd => hall d (List.mem_cons_of_mem c hd)⟩

/-- A pattern that fails fast on every character of s leaves s
unchanged under ReplaceAllString. -/
theorem replaceAll_id_of_failfast (r : RE) (repl : Str) (s : Str) (g : Char → Prop)
    (hg : ∀ (fuel : Nat) (prev : Option Char) (c : Char) (t2 : Str), g c →
      matchAt r fuel prev (c :: t2) = none)
    (hnil : ∀ (fuel : Nat) (prev : Option Char), matchAt r fuel prev [] = none)
    (hall : ∀ c ∈ s, g c) :
    replaceAll r repl s = s := by
  unfold replaceAll
  have h := scanF_skip_front r repl s 0 none []
    (nmAlong_of_failfast r g hg s 0 [] none hall)
  simp only [List.append_nil] at h
  have hlen : s.length + 1 = s.length + 0 + 1 := by omega
  rw [hlen, h]
  have hend : scanF r repl (0 + 1) (prevAfter none s) [] = [] := by
    simp only [scanF, hnil]
  rw [hend, List.append_nil]

/-- matchAt on the empty input is none for every pattern that has to
consume at least one character; stated for the two patterns used on
remainder-empty positions. -/
theorem matchAt_memAddr_nil (fuel : Nat) (prev : Option Char) :
    matchAt memAddrPattern fuel prev [] = none := rfl

/-- The memory-address pattern fails immediately unless the position
starts with the digit zero. -/
theorem matchAt_memAddr_failfast (fuel : Nat) (prev : Option Char) (c : Char)
    (t : Str) (hc : c ≠ '0') :
    matchAt memAddrPattern fuel prev (c :: t) = none := by
  simp [matchAt, memAddrPattern, chr, reA, hc]

/-- The offset pattern fails immediately unless the position starts
with a plus sign. -/
theorem matchAt_offset_failfast (fuel : Nat) (prev : Option Char) (c : Char)
    (t : Str) (hc : c ≠ '+') :
    matchAt offsetPattern fuel prev (c :: t) = none := by
  simp [matchAt, offsetPattern, chr, reA, hc]


/-- Unfolding equation of starIter at a successor fuel. -/
theorem starIter_succ (step : Option Char → Str → List MRes) (fuel : Nat)
    (prev : Option Char) (s : Str) :
    starIter step (fuel + 1) prev s =
      ((step prev s).flatMap fun pr =>
        if pr.2.length < s.length then starIter step fuel pr.1 pr.2 else []) ++
      [(prev, s)] := rfl

/-- Unfolding equation of reA on a concatenation. -/
theorem reA_cat_eq (a b : RE) (F : Nat) (prev : Option Char) (s : Str) :
    reA (.cat a b) F prev s = (reA a F prev s).flatMap fun pr => reA b F pr.1 pr.2 := rfl

/-- Unfolding equation of reA on a star. -/
theorem reA_star_eq (a : RE) (F : Nat) (prev : Option Char) (s : Str) :
    reA (.star a) F prev s = starIter (fun p1 s1 => reA a F p1 s1) F prev s := rfl

/-- Greedy iteration of the hex class consumes a maximal hex run:
the preferred (first) result consumes all of ds and stops at rest,
whose head is not a hex digit. -/
theorem starIter_hex (F : Nat) :
    ∀ (ds : Str) (g : Nat) (prev : Option Char) (rest : Str),
      (∀ d ∈ ds, isHexB d = true) →
      (∀ c, rest.head? = some c → isHexB c = false) →
      ∃ l, starIter (fun p s => reA hexC F p s) (ds.length + g + 1) prev (ds ++ rest) =
        (prevAfter prev ds, rest) :: l := by
  intro ds
  induction ds with
  | nil =>
      intro g prev rest _ hrest
      refine ⟨[], ?_⟩
      cases rest with
      | nil => simp [starIter, reA, prevAfter]
      | cons c t =>
          have hc := hrest c rfl
          simp [starIter, reA, hc, prevAfter]
  | cons d ds ih =>
      intro g prev rest hds hrest
      have hd : isHexB d = true := hds d (List.mem_cons_self d ds)
      have hds2 : ∀ c ∈ ds, isHexB c = true := fun c hc => hds c (List.mem_cons_of_mem d hc)
      have hf : (d :: ds).length + g + 1 = (ds.length + g + 1) + 1 := by simp; omega
      rw [hf]
      obtain ⟨l, hl⟩ := ih (g := g) (some d) rest hds2 hrest
      refine ⟨l ++ [(prev, (d :: ds) ++ rest)], ?_⟩
      rw [starIter_succ, List.cons_append]
      have hstep : reA hexC F prev (d :: (ds ++ rest)) = [(some d, ds ++ rest)] := by
        simp [reA, hd]
      rw [hstep]
      simp only [List.flatMap_cons, List.flatMap_nil, List.append_nil]
      rw [if_pos (by simp), hl]
      simp [prevAfter]

/-- The leftmost-first match of the memory-address pattern on a
position starting 0x with a hex run consumes exactly the run. -/
theorem matchAt_memAddr_run (d : Char) (ds : Str) (g : Nat) (prev : Option Char)
    (rest : Str) (hd : isHexB d = true) (hds : ∀ c ∈ ds, isHexB c = true)
    (hrest : ∀ c, rest.head? = some c → isHexB c = false) :
    matchAt memAddrPattern (ds.length + g + 1) prev ('0' :: 'x' :: d :: (ds ++ rest)) =
      some (prevAfter (some d) ds, rest) := by
  obtain ⟨l, hl⟩ := starIter_hex (ds.length + g + 1) ds g (some d) rest hds hrest
  unfold matchAt
  have hm : memAddrPattern = .cat (chr '0') (.cat (chr 'x') (.cat hexC (.star hexC))) := rfl
  rw [hm, reA_cat_eq]
  rw [show reA (chr '0') (ds.length + g + 1) prev ('0' :: 'x' :: d :: (ds ++ rest)) =
    [(some '0', 'x' :: d :: (ds ++ rest))] from by simp [reA, chr]]
  simp only [List.flatMap_cons, List.flatMap_nil, List.append_nil]
  rw [reA_cat_eq]
  rw [show reA (chr 'x') (ds.length + g + 1) (some '0') ('x' :: d :: (ds ++ rest)) =
    [(some 'x', d :: (ds ++ rest))] from by simp [reA, chr]]
  simp only [List.flatMap_cons, List.flatMap_nil, List.append_nil]
  rw [reA_cat_eq]
  rw [show reA hexC (ds.length + g + 1) (some 'x') (d :: (ds ++ rest)) =
    [(some d, ds ++ rest)] from by simp [reA, hd]]
  simp only [List.flatMap_cons, List.flatMap_nil, List.append_nil]
  rw [reA_star_eq, hl]
  rfl

/-- scanF of an empty remainder is empty, for a pattern that cannot
match the empty string. -/
theorem scanF_nil (r : RE) (repl : Str)
    (hnil : ∀ (fuel : Nat) (prev : Option Char), matchAt r fuel prev [] = none) :
    ∀ (f : Nat) (p : Option Char), scanF r repl f p [] = [] := by
  intro f p
  cases f with
  | zero => rfl
  | succ f => simp only [scanF, hnil]

/-- ReplaceAllString with the memory-address pattern on a function
line of a Go stack trace removes the parenthesised 0x address,
whatever its hexadecimal digits are. -/
theorem replaceAll_memAddr_fn (name : Str) (hname : ∀ c ∈ name, c ≠ '0')
    (a : Str) (ha : a ≠ []) (hhex : ∀ c ∈ a, isHexB c = true) :
    replaceAll memAddrPattern [] (name ++ ('(' :: '0' :: 'x' :: (a ++ [')']))) =
      name ++ ['(', ')'] := by
  obtain ⟨d, ds, rfl⟩ : ∃ d ds, a = d :: ds := by
    cases a with
    | nil => exact absurd rfl ha
    | cons d ds => exact ⟨d, ds, rfl⟩
  unfold replaceAll
  have hassoc : name ++ ('(' :: '0' :: 'x' :: ((d :: ds) ++ [')'])) =
      (name ++ ['(']) ++ ('0' :: 'x' :: d :: (ds ++ [')'])) := by
    simp
  rw [hassoc]
  have hlen : ((name ++ ['(']) ++ ('0' :: 'x' :: d :: (ds ++ [')']))).length + 1 =
      (name ++ ['(']).length + (ds.length + 4) + 1 := by
    simp
    omega
  rw [hlen]
  rw [scanF_skip_front memAddrPattern [] (name ++ ['(']) (ds.length + 4) none _
    (nmAlong_of_failfast memAddrPattern (fun c => c ≠ '0') matchAt_memAddr_failfast _ _ _ _
      (by
        intro c hc
        rcases List.mem_append.mp hc with h | h
        · exact hname c h
        · simp at h
          rw [h]
          decide))]
  have hmatch : matchAt memAddrPattern (ds.length + 4 + 1)
      (prevAfter none (name ++ ['('])) ('0' :: 'x' :: d :: (ds ++ [')'])) =
      some (prevAfter (some d) ds, [')']) := by
    exact matchAt_memAddr_run d ds 4 _ [')']
      (hhex d (List.mem_cons_self d ds))
      (fun c hc => hhex c (List.mem_cons_of_mem d hc))
      (fun c hc => by
        simp at hc
        rw [← hc]
        decide)
  rw [scanF_match memAddrPattern [] (ds.length + 4) _ _ _ _ hmatch (by simp)]
  rw [show ds.length + 4 = (ds.length + 3) + 1 from rfl]
  rw [scanF_skip memAddrPattern [] (ds.length + 3) _ ')' []
    (matchAt_memAddr_failfast _ _ _ _ (by decide))]
  rw [scanF_nil memAddrPattern [] matchAt_memAddr_nil]
  simp


/-- dropWhile is the identity when the head fails the predicate. -/
theorem dropWhile_id_of_head {p : Char → Bool} {l : Str}
    (h : ∀ c, l.head? = some c → p c = false) : l.dropWhile p = l := by
  cases l with
  | nil => rfl
  | cons c t =>
      have := h c rfl
      simp [List.dropWhile, this]

/-- TrimSpace is the identity when both ends are non-whitespace. -/
theorem trimSpace_id {s : Str}
    (h1 : ∀ c, s.head? = some c → isTrimSpaceB c = false)
    (h2 : ∀ c, s.getLast? = some c → isTrimSpaceB c = false) : trimSpace s = s := by
  unfold trimSpace
  rw [dropWhile_id_of_head h1]
  rw [dropWhile_id_of_head (by
    intro c hc
    rw [List.head?_reverse] at hc
    exact h2 c hc)]
  exact List.reverse_reverse s

/-- The goroutine header line is skipped. -/
theorem nstLoop_goroutine (rest : List Str) (frames : List Str) :
    nstLoop ("goroutine 1 [running]:".toList :: rest) frames = nstLoop rest frames := rfl

/-- A line of a tab followed by a slash (a source-location line)
trims to a leading slash. -/
theorem trimSpace_tabslash (X : Str) :
    trimSpace ('\t' :: '/' :: X) = '/' :: (X.reverse.dropWhile isTrimSpaceB).reverse := by
  unfold trimSpace
  rw [show ('\t' :: '/' :: X).dropWhile isTrimSpaceB = '/' :: X from by
    simp [List.dropWhile, isTrimSpaceB]]
  rw [show ('/' :: X).reverse = X.reverse ++ ['/'] from by simp]
  rw [List.dropWhile_append]
  by_cases hX : (X.reverse.dropWhile isTrimSpaceB).isEmpty
  · rw [if_pos hX]
    have hnil : X.reverse.dropWhile isTrimSpaceB = [] := by
      simpa [List.isEmpty_iff] using hX
    rw [hnil]
    simp [List.dropWhile, isTrimSpaceB]
  · rw [if_neg hX]
    simp

/-- A source-location line is skipped, whatever follows the slash. -/
theorem nstLoop_tabslash (X : Str) (rest : List Str) (frames : List Str) :
    nstLoop (('\t' :: '/' :: X) :: rest) frames = nstLoop rest frames := by
  simp only [nstLoop]
  rw [trimSpace_tabslash]
  simp [hasPrefixStr, List.isPrefixOf]


/-- The first index of an opening parenthesis after a paren-free
name. -/
theorem findIdx_paren_aux (name : Str) (h : ∀ c ∈ name, c ≠ '(') (X : Str) :
    ∀ i : Nat, (name ++ '(' :: X).findIdx? (fun c => c = '(') i =
      some (name.length + i) := by
  induction name with
  | nil =>
      intro i
      simp [List.findIdx?_cons]
  | cons c t ih =>
      intro i
      have hc : c ≠ '(' := h c (List.mem_cons_self c t)
      have ht : ∀ d ∈ t, d ≠ '(' := fun d hd => h d (List.mem_cons_of_mem c hd)
      rw [List.cons_append, List.findIdx?_cons, if_neg (by simp [hc])]
      rw [ih ht (i + 1)]
      simp
      omega

theorem findIdx_paren (name : Str) (h : ∀ c ∈ name, c ≠ '(') (X : Str) :
    (name ++ '(' :: X).findIdx? (fun c => c = '(') = some name.length := by
  rw [findIdx_paren_aux name h X 0]
  simp

/-- Processing one frame line of the canonical Go trace shape: the
address is erased by the memory-address pass, the offset pass is a
no-op, the line is cut at the parenthesis, and the anchored function
name pattern returns the name, which is appended to the frames. -/
theorem nstLoop_frame (name : Str) (a : Str) (rest : List Str) (frames : List Str)
    (hne : name ≠ [])
    (h0 : ∀ c ∈ name, c ≠ '0')
    (hp : ∀ c ∈ name, c ≠ '+')
    (hpar : ∀ c ∈ name, c ≠ '(')
    (hws : ∀ c, name.head? = some c → isTrimSpaceB c = false)
    (hwsl : ∀ c, name.getLast? = some c → isTrimSpaceB c = false)
    (hg : hasPrefixStr (name ++ ('(' :: '0' :: 'x' :: (a ++ [')'])))
      "goroutine ".toList = false)
    (htb : hasPrefixStr (name ++ ('(' :: '0' :: 'x' :: (a ++ [')']))) "\t".toList = false)
    (hsl : hasPrefixStr (name ++ ('(' :: '0' :: 'x' :: (a ++ [')']))) "/".toList = false)
    (hfind : findString funcNamePattern name = name)
    (ha : a ≠ []) (hhex : ∀ c ∈ a, isHexB c = true) :
    nstLoop ((name ++ ('(' :: '0' :: 'x' :: (a ++ [')']))) :: rest) frames =
      (if 3 ≤ (frames ++ [name]).length then frames ++ [name]
       else nstLoop rest (frames ++ [name])) := by
  have hlinene : name ++ ('(' :: '0' :: 'x' :: (a ++ [')'])) ≠ [] := by
    simp
  have htrim : trimSpace (name ++ ('(' :: '0' :: 'x' :: (a ++ [')']))) =
      name ++ ('(' :: '0' :: 'x' :: (a ++ [')'])) := by
    refine trimSpace_id ?_ ?_
    · intro c hc
      cases name with
      | nil => exact absurd rfl hne
      | cons d t =>
          rw [List.cons_append] at hc
          simp only [List.head?_cons, Option.some.injEq] at hc
          rw [← hc]
          exact hws d rfl
    · intro c hc
      have : (name ++ ('(' :: '0' :: 'x' :: (a ++ [')']))).getLast? = some ')' := by
        rw [List.getLast?_append_of_ne_nil _ (by simp)]
        rw [show ('(' :: '0' :: 'x' :: (a ++ [')'])) = ('(' :: '0' :: 'x' :: a) ++ [')']
          from by simp]
        exact List.getLast?_concat _
      rw [this] at hc
      injection hc with hc
      rw [← hc]
      decide
  simp only [nstLoop]
  rw [htrim, if_neg hlinene]
  rw [hg, htb, hsl]
  simp only [Bool.false_eq_true, if_false, Bool.or_self]
  rw [replaceAll_memAddr_fn name h0 a ha hhex]
  rw [replaceAll_id_of_failfast offsetPattern [] (name ++ ['(', ')']) (fun c => c ≠ '+')
    matchAt_offset_failfast (fun fuel prev => rfl) (by
      intro c hc
      rcases List.mem_append.mp hc with h | h
      · exact hp c h
      · simp at h
        rcases h with h | h <;> (rw [h]; decide))]
  rw [show name ++ ['(', ')'] = name ++ '(' :: [')'] from rfl]
  rw [findIdx_paren name hpar [')']]
  dsimp only
  have hlen0 : 0 < name.length := by
    cases name with
    | nil => exact absurd rfl hne
    | cons _ _ => simp
  rw [if_pos hlen0]
  rw [show (name ++ '(' :: [')']).take name.length = name from List.take_left name ('(' :: [')'])]
  rw [trimSpace_id hws hwsl, if_neg hne, hfind, if_neg hne]


theorem splitLinesGo_cons (c : Char) (t : Str) :
    splitLinesGo (c :: t) =
      match splitLinesGo t with
      | [] => [[c]]
      | h :: tl => if c = '\n' then [] :: h :: tl else (c :: h) :: tl := rfl

theorem splitLinesGo_ne_nil (s : Str) : splitLinesGo s ≠ [] := by
  cases s with
  | nil => simp [splitLinesGo]
  | cons c t =>
      rw [splitLinesGo_cons]
      match splitLinesGo t with
      | [] => simp
      | h :: tl =>
          by_cases hc : c = '\n' <;> simp [hc]

theorem splitLinesGo_append (A B : Str) (h : '\n' ∉ A) :
    splitLinesGo (A ++ '\n' :: B) = A :: splitLinesGo B := by
  induction A with
  | nil =>
      obtain ⟨hd, tl, heq⟩ : ∃ hd tl, splitLinesGo B = hd :: tl := by
        match hB : splitLinesGo B with
        | [] => exact absurd hB (splitLinesGo_ne_nil B)
        | hd :: tl => exact ⟨hd, tl, rfl⟩
      rw [List.nil_append, splitLinesGo_cons, heq]
      simp
  | cons c A ih =>
      have hc : c ≠ '\n' := fun hcc => h (hcc ▸ List.mem_cons_self c A)
      have hA : '\n' ∉ A := fun hm => h (List.mem_cons_of_mem c hm)
      rw [List.cons_append, splitLinesGo_cons, ih hA]
      simp [hc]

theorem splitLinesGo_no_nl (A : Str) (h : '\n' ∉ A) : splitLinesGo A = [A] := by
  induction A with
  | nil => rfl
  | cons c A ih =>
      have hc : c ≠ '\n' := fun hcc => h (hcc ▸ List.mem_cons_self c A)
      have hA : '\n' ∉ A := fun hm => h (List.mem_cons_of_mem c hm)
      rw [splitLinesGo_cons, ih hA]
      simp [hc]

theorem nomem_cons {c x : Char} {t : Str} (h1 : c ≠ x) (h2 : c ∉ t) : c ∉ x :: t :=
  fun hm => (List.mem_cons.mp hm).elim (fun hh => h1 hh) (fun hh => h2 hh)

theorem nomem_append {c : Char} {A B : Str} (h1 : c ∉ A) (h2 : c ∉ B) : c ∉ A ++ B :=
  fun hm => (List.mem_append.mp hm).elim (fun hh => h1 hh) (fun hh => h2 hh)

/-- The canonical two-frame Go panic trace, with arbitrary
hexadecimal addresses in the frame lines and arbitrary
line-number-and-offset text in the source-location lines. -/
def mkGoTrace (a1 l1 a2 l2 : Str) : Str :=
  "goroutine 1 [running]:".toList ++ '\n' ::
    (("main.doSomething".toList ++ ('(' :: '0' :: 'x' :: (a1 ++ [')']))) ++ '\n' ::
      (('\t' :: '/' :: ("app/main.go:".toList ++ l1)) ++ '\n' ::
        (("main.main".toList ++ ('(' :: '0' :: 'x' :: (a2 ++ [')']))) ++ '\n' ::
          ('\t' :: '/' :: ("app/main.go:".toList ++ l2)))))

/-- Normalization of the canonical trace ignores the addresses and
the whole source-location lines: the frames are just the two
function names. -/
theorem normalize_mkGoTrace (a1 l1 a2 l2 : Str)
    (ha1 : a1 ≠ []) (hx1 : ∀ c ∈ a1, isHexB c = true)
    (ha2 : a2 ≠ []) (hx2 : ∀ c ∈ a2, isHexB c = true)
    (hl1 : '\n' ∉ l1) (hl2 : '\n' ∉ l2) :
    normalizeStackTrace (mkGoTrace a1 l1 a2 l2) =
      ["main.doSomething".toList, "main.main".toList] := by
  have hnlhex : ∀ (a : Str), (∀ c ∈ a, isHexB c = true) → '\n' ∉ a := by
    intro a hx hm
    have := hx '\n' hm
    simp [isHexB] at this
  have hf1 : '\n' ∉ ("main.doSomething".toList ++ ('(' :: '0' :: 'x' :: (a1 ++ [')']))) :=
    nomem_append (by decide) (nomem_cons (by decide) (nomem_cons (by decide)
      (nomem_cons (by decide) (nomem_append (hnlhex a1 hx1) (by decide)))))
  have hf2 : '\n' ∉ ("main.main".toList ++ ('(' :: '0' :: 'x' :: (a2 ++ [')']))) :=
    nomem_append (by decide) (nomem_cons (by decide) (nomem_cons (by decide)
      (nomem_cons (by decide) (nomem_append (hnlhex a2 hx2) (by decide)))))
  have hp1 : '\n' ∉ ('\t' :: '/' :: ("app/main.go:".toList ++ l1)) :=
    nomem_cons (by decide) (nomem_cons (by decide) (nomem_append (by decide) hl1))
  have hp2 : '\n' ∉ ('\t' :: '/' :: ("app/main.go:".toList ++ l2)) :=
    nomem_cons (by decide) (nomem_cons (by decide) (nomem_append (by decide) hl2))
  unfold normalizeStackTrace mkGoTrace
  rw [if_neg (by simp)]
  rw [splitLinesGo_append _ _ (by decide)]
  rw [splitLinesGo_append _ _ hf1]
  rw [splitLinesGo_append _ _ hp1]
  rw [splitLinesGo_append _ _ hf2]
  rw [splitLinesGo_no_nl _ hp2]
  rw [nstLoop_goroutine]
  rw [nstLoop_frame "main.doSomething".toList a1 _ _ (by decide) (by decide) (by decide)
    (by decide) (by decide) (by decide) rfl rfl rfl (by decide) ha1 hx1]
  rw [if_neg (by simp)]
  rw [nstLoop_tabslash]
  rw [nstLoop_frame "main.main".toList a2 _ _ (by decide) (by decide) (by decide)
    (by decide) (by decide) (by decide) rfl rfl rfl (by decide) ha2 hx2]
  rw [if_neg (by simp)]
  rw [nstLoop_tabslash]
  simp [nstLoop]


/-- Unfolding equation of joinBar on two or more parts. -/
theorem joinBar_cons2 (x r : Str) (rs : List Str) :
    joinBar (x :: r :: rs) = x ++ '|' :: joinBar (r :: rs) := rfl

/-- joinBar separates components injectively at any single position:
if two part lists agree everywhere except possibly one slot and their
joins coincide, the slot entries coincide. -/
theorem joinBar_inj_single (A : List Str) (B : List Str) (x y : Str)
    (h : joinBar (A ++ x :: B) = joinBar (A ++ y :: B)) : x = y := by
  induction A with
  | nil =>
      cases B with
      | nil => simpa [joinBar] using h
      | cons b B =>
          rw [List.nil_append, List.nil_append, joinBar_cons2, joinBar_cons2] at h
          have := List.append_cancel_right h
          exact this
  | cons a A ih =>
      obtain ⟨r, rs, hr⟩ : ∃ r rs, A ++ x :: B = r :: rs := by
        cases A with
        | nil => exact ⟨x, B, rfl⟩
        | cons a2 A2 => exact ⟨a2, A2 ++ x :: B, rfl⟩
      obtain ⟨r2, rs2, hr2⟩ : ∃ r2 rs2, A ++ y :: B = r2 :: rs2 := by
        cases A with
        | nil => exact ⟨y, B, rfl⟩
        | cons a2 A2 => exact ⟨a2, A2 ++ y :: B, rfl⟩
      rw [List.cons_append, List.cons_append, hr, hr2, joinBar_cons2, joinBar_cons2] at h
      have h2 := List.append_cancel_left h
      injection h2 with _ h3
      rw [← hr, ← hr2] at h3
      exact ih h3

/-- C3: fingerprints group by root cause.  First conjunct: the
fingerprint depends only on error type, operation, agent name, tool
name and the normalized stack frames, so events differing only in
message text (or any other field, such as event id or timestamp)
have identical fingerprints.  Second conjunct: for events whose
stack traces have the canonical Go panic shape, any change of the
memory addresses in the frame lines or of the line-number text in
the source-location lines leaves the fingerprint identical.
Remaining conjuncts: events that differ in error type, operation,
agent name or tool name (all else among the hashed fields equal)
produce distinct SHA-256 inputs, which is the formal content of
distinct fingerprints holding with overwhelming probability. -/
theorem C3_fingerprint_stability :
    (∀ e1 e2 : ErrorEvent, e1.ErrorType = e2.ErrorType → e1.Operation = e2.Operation →
      e1.AgentName = e2.AgentName → e1.ToolName = e2.ToolName →
      normalizeStackTrace e1.StackTrace = normalizeStackTrace e2.StackTrace →
      Fingerprint e1 = Fingerprint e2) ∧
    (∀ e1 e2 : ErrorEvent, ∀ a1 l1 a2 l2 b1 m1 b2 m2 : Str,
      e1.ErrorType = e2.ErrorType → e1.Operation = e2.Operation →
      e1.AgentName = e2.AgentName → e1.ToolName = e2.ToolName →
      e1.StackTrace = mkGoTrace a1 l1 a2 l2 → e2.StackTrace = mkGoTrace b1 m1 b2 m2 →
      a1 ≠ [] → (∀ c ∈ a1, isHexB c = true) → a2 ≠ [] → (∀ c ∈ a2, isHexB c = true) →
      b1 ≠ [] → (∀ c ∈ b1, isHexB c = true) → b2 ≠ [] → (∀ c ∈ b2, isHexB c = true) →
      '\n' ∉ l1 → '\n' ∉ l2 → '\n' ∉ m1 → '\n' ∉ m2 →
      Fingerprint e1 = Fingerprint e2) ∧
    (∀ e1 e2 : ErrorEvent, e1.Operation = e2.Operation → e1.AgentName = e2.AgentName →
      e1.ToolName = e2.ToolName →
      normalizeStackTrace e1.StackTrace = normalizeStackTrace e2.StackTrace →
      e1.ErrorType ≠ e2.ErrorType → fingerprintInput e1 ≠ fingerprintInput e2) ∧
    (∀ e1 e2 : ErrorEvent, e1.ErrorType = e2.ErrorType → e1.AgentName = e2.AgentName →
      e1.ToolName = e2.ToolName →
      normalizeStackTrace e1.StackTrace = normalizeStackTrace e2.StackTrace →
      e1.Operation ≠ e2.Operation → fingerprintInput e1 ≠ fingerprintInput e2) ∧
    (∀ e1 e2 : ErrorEvent, e1.ErrorType = e2.ErrorType → e1.Operation = e2.Operation →
      e1.ToolName = e2.ToolName →
      normalizeStackTrace e1.StackTrace = normalizeStackTrace e2.StackTrace →
      e1.AgentName ≠ e2.AgentName → fingerprintInput e1 ≠ fingerprintInput e2) ∧
    (∀ e1 e2 : ErrorEvent, e1.ErrorType = e2.ErrorType → e1.Operation = e2.Operation →
      e1.AgentName = e2.AgentName →
      normalizeStackTrace e1.StackTrace = normalizeStackTrace e2.StackTrace →
      e1.ToolName ≠ e2.ToolName → fingerprintInput e1 ≠ fingerprintInput e2) := by
  have hdep : ∀ e1 e2 : ErrorEvent, e1.ErrorType = e2.ErrorType →
      e1.Operation = e2.Operation → e1.AgentName = e2.AgentName →
      e1.ToolName = e2.ToolName →
      normalizeStackTrace e1.StackTrace = normalizeStackTrace e2.StackTrace →
      Fingerprint e1 = Fingerprint e2 := by
    intro e1 e2 h1 h2 h3 h4 h5
    unfold Fingerprint fingerprintInput
    rw [h1, h2, h3, h4, h5]
  refine ⟨hdep, ?_, ?_, ?_, ?_, ?_⟩
  · intro e1 e2 a1 l1 a2 l2 b1 m1 b2 m2 h1 h2 h3 h4 hs1 hs2 ha1 hx1 ha2 hx2 hb1 hy1
      hb2 hy2 hl1 hl2 hm1 hm2
    refine hdep e1 e2 h1 h2 h3 h4 ?_
    rw [hs1, hs2, normalize_mkGoTrace a1 l1 a2 l2 ha1 hx1 ha2 hx2 hl1 hl2,
      normalize_mkGoTrace b1 m1 b2 m2 hb1 hy1 hb2 hy2 hm1 hm2]
  · intro e1 e2 h2 h3 h4 h5 hne heq
    unfold fingerprintInput at heq
    rw [h2, h3, h4, h5] at heq
    exact hne (joinBar_inj_single [] _ _ _ heq)
  · intro e1 e2 h1 h3 h4 h5 hne heq
    unfold fingerprintInput at heq
    rw [h1, h3, h4, h5] at heq
    exact hne (joinBar_inj_single [e2.ErrorType] _ _ _ heq)
  · intro e1 e2 h1 h2 h4 h5 hne heq
    unfold fingerprintInput at heq
    rw [h1, h2, h4, h5] at heq
    exact hne (joinBar_inj_single [e2.ErrorType, e2.Operation] _ _ _ heq)
  · intro e1 e2 h1 h2 h3 h5 hne heq
    unfold fingerprintInput at heq
    rw [h1, h2, h3, h5] at heq
    exact hne (joinBar_inj_single [e2.ErrorType, e2.Operation, e2.AgentName] _ _ _ heq)


def c3eventA : ErrorEvent :=
  { ErrorType := "panic".toList, Operation := "tool".toList,
    AgentName := "agent1".toList, ToolName := "ToolA".toList,
    Message := "boom at 1".toList,
    StackTrace := mkGoTrace ("1234abcd".toList) ("42".toList) ("89ab".toList) ("10".toList) }

def c3eventB : ErrorEvent :=
  { ErrorType := "panic".toList, Operation := "tool".toList,
    AgentName := "agent1".toList, ToolName := "ToolA".toList,
    Message := "boom at 2".toList,
    StackTrace := mkGoTrace ("deadbeef".toList) ("99".toList) ("77".toList) ("55".toList) }

def c3eventC : ErrorEvent :=
  { ErrorType := "error".toList, Operation := "tool".toList,
    AgentName := "agent1".toList, ToolName := "ToolA".toList }

def c3eventD : ErrorEvent :=
  { ErrorType := "error".toList, Operation := "tool".toList,
    AgentName := "agent1".toList, ToolName := "ToolB".toList }

/-- Witness for C3: two concrete events differing only in message
text, stack-trace line numbers and memory addresses receive the same
fingerprint, and two concrete events differing only in tool name
have distinct hash inputs. -/
theorem C3_fingerprint_stability_witness :
    Fingerprint c3eventA = Fingerprint c3eventB ∧
    fingerprintInput c3eventC ≠ fingerprintInput c3eventD :=
  ⟨C3_fingerprint_stability.2.1 _ _ ("1234abcd".toList) ("42".toList) ("89ab".toList)
      ("10".toList) ("deadbeef".toList) ("99".toList) ("77".toList) ("55".toList) rfl rfl rfl rfl
      rfl rfl (by decide) (by decide) (by decide) (by decide) (by decide) (by decide)
      (by decide) (by decide) (by decide) (by decide) (by decide) (by decide),
    C3_fingerprint_stability.2.2.2.2.2 _ _ rfl rfl rfl rfl (by decide)⟩

/-! ### A window checker for the regex engine

`sv r prev w` conservatively computes the full preference-ordered
result list of `reA` on any input beginning with the window `w`,
provided every branch of the match is decided strictly inside the
window; it returns `none` when some branch would have to look past
the window (or past the star fuel).  Soundness is proved below: a
`some L` verdict determines `reA` for every continuation of the
window and every sufficiently large fuel, so `decide` on small
concrete windows settles match questions about arbitrarily long
inputs. -/

/-- Sequence a window check over a list of intermediate results,
concatenating the result lists in order (the shape of `flatMap`). -/
def svSeq (g : MRes → Option (List MRes)) : List MRes → Option (List MRes)
  | [] => some []
  | pr :: rest =>
      (g pr).bind fun Li => (svSeq g rest).map fun Lr => Li ++ Lr

/-- Process the branches of one star step: branches that consumed no
character are dropped (the progress rule of `starIter`), the others
are continued with `f`. -/
def svBranches (f : Option Char → Str → Option (List MRes)) (wlen : Nat) :
    List MRes → Option (List MRes)
  | [] => some []
  | pr :: rest =>
      if pr.2.length < wlen then
        (f pr.1 pr.2).bind fun Li =>
          (svBranches f wlen rest).map fun Lr => Li ++ Lr
      else svBranches f wlen rest

/-- Window check of a star: iterate the body check while it makes
progress; the unconsumed-window outcome is least preferred, as in
`starIter`.  The fuel only needs to exceed the window length. -/
def svStarLoop (svA : Option Char → Str → Option (List MRes)) :
    Nat → Option Char → Str → Option (List MRes)
  | 0, _, _ => none
  | n + 1, prev, w =>
      (svA prev w).bind fun L0 =>
        (svBranches (svStarLoop svA n) w.length L0).map fun Ls =>
          Ls ++ [(prev, w)]

/-- The window checker itself, by structural recursion on the
pattern.  A character class or boundary at the window edge cannot be
decided inside the window, so those cases return `none`. -/
def sv : RE → Option Char → Str → Option (List MRes)
  | .emp, prev, w => some [(prev, w)]
  | .bndry, prev, w =>
      match w with
      | [] => none
      | c :: t => some (if boundaryB prev (c :: t) then [(prev, c :: t)] else [])
  | .cls p, _, w =>
      match w with
      | [] => none
      | c :: t => some (if p c then [(some c, t)] else [])
  | .alt a b, prev, w =>
      (sv a prev w).bind fun L1 => (sv b prev w).map fun L2 => L1 ++ L2
  | .cat a b, prev, w =>
      (sv a prev w).bind fun L1 => svSeq (fun pr => sv b pr.1 pr.2) L1
  | .star a, prev, w =>
      svStarLoop (fun pv2 w2 => sv a pv2 w2) (w.length + 1) prev w

example : sv (patCred "secret".toList) none "secret=x ".toList =
    some [(some 'x', [' '])] := by decide

example : sv (patCred "secret".toList) (some ' ') "secret=x ".toList =
    some [(some 'x', [' '])] := by decide

example : sv (patCred "secret".toList) (some 'x') [' '] = some [] := by decide

example : sv patApiKey none "secret=x ".toList = some [] := by decide

example : sv patEmail (some ' ') "secret=x ".toList = some [] := by decide

example : sv patEmail none [] = none := by decide

/-- Generic inversion for `svSeq`: a property of all elements of the
per-branch result lists holds of all elements of the sequenced
result. -/
theorem svSeq_all (g : MRes → Option (List MRes)) (P : MRes → Prop) :
    ∀ (l Ls : List MRes), svSeq g l = some Ls →
      (∀ pr ∈ l, ∀ Li, g pr = some Li → ∀ q ∈ Li, P q) →
      ∀ q ∈ Ls, P q := by
  intro l
  induction l with
  | nil =>
      intro Ls h _
      simp only [svSeq] at h
      cases h
      intro q hq
      cases hq
  | cons pr rest ih =>
      intro Ls h hall q hq
      simp only [svSeq, Option.bind_eq_some, Option.map_eq_some'] at h
      obtain ⟨Li, hLi, Lr, hLr, rfl⟩ := h
      rcases List.mem_append.mp hq with h1 | h2
      · exact hall pr (List.mem_cons_self pr rest) Li hLi q h1
      · exact ih Lr hLr (fun p hp => hall p (List.mem_cons_of_mem pr hp)) q h2

/-- Generic inversion for `svBranches`. -/
theorem svBranches_all (f : Option Char → Str → Option (List MRes)) (wlen : Nat)
    (P : MRes → Prop) :
    ∀ (l Ls : List MRes), svBranches f wlen l = some Ls →
      (∀ pr ∈ l, pr.2.length < wlen → ∀ Li, f pr.1 pr.2 = some Li → ∀ q ∈ Li, P q) →
      ∀ q ∈ Ls, P q := by
  intro l
  induction l with
  | nil =>
      intro Ls h _
      simp only [svBranches] at h
      cases h
      intro q hq
      cases hq
  | cons pr rest ih =>
      intro Ls h hall q hq
      simp only [svBranches] at h
      by_cases hlt : pr.2.length < wlen
      · rw [if_pos hlt] at h
        simp only [Option.bind_eq_some, Option.map_eq_some'] at h
        obtain ⟨Li, hLi, Lr, hLr, rfl⟩ := h
        rcases List.mem_append.mp hq with h1 | h2
        · exact hall pr (List.mem_cons_self pr rest) hlt Li hLi q h1
        · exact ih Lr hLr (fun p hp => hall p (List.mem_cons_of_mem pr hp)) q h2
      · rw [if_neg hlt] at h
        exact ih Ls h (fun p hp => hall p (List.mem_cons_of_mem pr hp)) q hq

/-- Every result of `svStarLoop` has remainder no longer than the
window, given the same for the body check. -/
theorem svStarLoop_len (svA : Option Char → Str → Option (List MRes)) :
    ∀ (n : Nat) (pv : Option Char) (w : Str) (L : List MRes),
      svStarLoop svA n pv w = some L → ∀ q ∈ L, q.2.length ≤ w.length := by
  intro n
  induction n with
  | zero => intro pv w L h; cases h
  | succ n ih =>
      intro pv w L h q hq
      simp only [svStarLoop, Option.bind_eq_some, Option.map_eq_some'] at h
      obtain ⟨L0, hL0, Ls, hLs, rfl⟩ := h
      rcases List.mem_append.mp hq with h1 | h2
      · refine svBranches_all _ _ (fun q => q.2.length ≤ w.length) L0 Ls hLs ?_ q h1
        intro pr _ hlt Li hLi q2 hq2
        exact le_trans (ih pr.1 pr.2 Li hLi q2 hq2) (le_of_lt hlt)
      · rw [List.mem_singleton] at h2
        subst h2
        exact le_refl _

/-- Every result of the window checker has remainder no longer than
the window. -/
theorem sv_len :
    ∀ (r : RE) (pv : Option Char) (w : Str) (L : List MRes),
      sv r pv w = some L → ∀ q ∈ L, q.2.length ≤ w.length := by
  intro r
  induction r with
  | emp =>
      intro pv w L h q hq
      simp only [sv] at h
      cases h
      rw [List.mem_singleton] at hq
      subst hq
      exact le_refl _
  | cls p =>
      intro pv w L h q hq
      cases w with
      | nil => exact absurd h (by simp [sv])
      | cons c t =>
          simp only [sv] at h
          cases h
          by_cases hc : p c
          · rw [if_pos hc, List.mem_singleton] at hq
            subst hq
            exact Nat.le_succ _
          · rw [if_neg hc] at hq; cases hq
  | bndry =>
      intro pv w L h q hq
      cases w with
      | nil => exact absurd h (by simp [sv])
      | cons c t =>
          simp only [sv] at h
          cases h
          by_cases hc : boundaryB pv (c :: t)
          · rw [if_pos hc, List.mem_singleton] at hq
            subst hq
            exact le_refl _
          · rw [if_neg hc] at hq; cases hq
  | alt a b iha ihb =>
      intro pv w L h q hq
      simp only [sv, Option.bind_eq_some, Option.map_eq_some'] at h
      obtain ⟨L1, hL1, L2, hL2, rfl⟩ := h
      rcases List.mem_append.mp hq with h1 | h2
      · exact iha pv w L1 hL1 q h1
      · exact ihb pv w L2 hL2 q h2
  | cat a b iha ihb =>
      intro pv w L h q hq
      simp only [sv, Option.bind_eq_some] at h
      obtain ⟨L1, hL1, hseq⟩ := h
      refine svSeq_all _ (fun q => q.2.length ≤ w.length) L1 L hseq ?_ q hq
      intro pr hpr Li hLi q2 hq2
      exact le_trans (ihb pr.1 pr.2 Li hLi q2 hq2) (iha pv w L1 hL1 pr hpr)
  | star a iha =>
      intro pv w L h q hq
      simp only [sv] at h
      exact svStarLoop_len (fun pv2 w2 => sv a pv2 w2) (w.length + 1) pv w L h q hq

/-- flatMap over a mapped list. -/
theorem flatMap_map_eq {α β γ : Type} (f : α → β) (g : β → List γ) (l : List α) :
    (l.map f).flatMap g = l.flatMap fun x => g (f x) := by
  induction l with
  | nil => rfl
  | cons x l ih => simp only [List.map_cons, List.flatMap_cons, ih]

/-- With window length zero, `svBranches` drops every branch. -/
theorem svBranches_zero (f : Option Char → Str → Option (List MRes)) :
    ∀ (l Ls : List MRes), svBranches f 0 l = some Ls → Ls = [] := by
  intro l
  induction l with
  | nil =>
      intro Ls h
      simp only [svBranches] at h
      injection h with h
      exact h.symm
  | cons pr rest ih =>
      intro Ls h
      simp only [svBranches, if_neg (Nat.not_lt_zero pr.2.length)] at h
      exact ih Ls h

/-- The sequenced check computes a `flatMap`, elementwise. -/
theorem svSeq_flatMap (g : MRes → Option (List MRes)) (hmap : MRes → MRes)
    (hstep : MRes → List MRes) :
    ∀ (l Ls : List MRes), svSeq g l = some Ls →
      (∀ pr ∈ l, ∀ Li, g pr = some Li → hstep pr = Li.map hmap) →
      l.flatMap hstep = Ls.map hmap := by
  intro l
  induction l with
  | nil =>
      intro Ls h _
      simp only [svSeq] at h
      cases h
      rfl
  | cons pr rest ih =>
      intro Ls h hall
      simp only [svSeq, Option.bind_eq_some, Option.map_eq_some'] at h
      obtain ⟨Li, hLi, Lr, hLr, rfl⟩ := h
      rw [List.flatMap_cons, List.map_append,
        hall pr (List.mem_cons_self pr rest) Li hLi,
        ih Lr hLr fun p hp => hall p (List.mem_cons_of_mem pr hp)]

/-- The branch check computes a `flatMap` whose step is empty on
non-progressing branches. -/
theorem svBranches_flatMap (f : Option Char → Str → Option (List MRes)) (wlen : Nat)
    (hmap : MRes → MRes) (hstep : MRes → List MRes) :
    ∀ (l Ls : List MRes), svBranches f wlen l = some Ls →
      (∀ pr ∈ l, pr.2.length < wlen → ∀ Li, f pr.1 pr.2 = some Li →
        hstep pr = Li.map hmap) →
      (∀ pr ∈ l, ¬ pr.2.length < wlen → hstep pr = []) →
      l.flatMap hstep = Ls.map hmap := by
  intro l
  induction l with
  | nil =>
      intro Ls h _ _
      simp only [svBranches] at h
      cases h
      rfl
  | cons pr rest ih =>
      intro Ls h hall hdrop
      simp only [svBranches] at h
      by_cases hlt : pr.2.length < wlen
      · rw [if_pos hlt] at h
        simp only [Option.bind_eq_some, Option.map_eq_some'] at h
        obtain ⟨Li, hLi, Lr, hLr, rfl⟩ := h
        rw [List.flatMap_cons, List.map_append,
          hall pr (List.mem_cons_self pr rest) hlt Li hLi,
          ih Lr hLr (fun p hp => hall p (List.mem_cons_of_mem pr hp))
            (fun p hp => hdrop p (List.mem_cons_of_mem pr hp))]
      · rw [if_neg hlt] at h
        rw [List.flatMap_cons, hdrop pr (List.mem_cons_self pr rest) hlt,
          List.nil_append,
          ih Ls h (fun p hp => hall p (List.mem_cons_of_mem pr hp))
            (fun p hp => hdrop p (List.mem_cons_of_mem pr hp))]

/-- Soundness of the star window check: a `some` verdict determines
the greedy iteration for every continuation, every iterator fuel at
least the window length, and every body fuel at least the window
length. -/
theorem svStarLoop_sound (a : RE) (svA : Option Char → Str → Option (List MRes))
    (hAs : ∀ pv ww Lw, svA pv ww = some Lw → ∀ (F2 : Nat) (R2 : Str), ww.length ≤ F2 →
        reA a F2 pv (ww ++ R2) = Lw.map fun pr => (pr.1, pr.2 ++ R2)) :
    ∀ (n : Nat) (pv : Option Char) (w : Str) (L : List MRes),
      svStarLoop svA n pv w = some L →
      ∀ (G m : Nat) (REST : Str), w.length ≤ G → w.length ≤ m →
        starIter (fun p1 s1 => reA a G p1 s1) m pv (w ++ REST) =
          L.map fun pr => (pr.1, pr.2 ++ REST) := by
  intro n
  induction n with
  | zero => intro pv w L h; cases h
  | succ n ih =>
      intro pv w L h G m REST hG hm
      simp only [svStarLoop, Option.bind_eq_some, Option.map_eq_some'] at h
      obtain ⟨L0, hL0, Ls, hLs, rfl⟩ := h
      cases m with
      | zero =>
          have hw : w = [] := List.length_eq_zero.mp (Nat.le_zero.mp hm)
          subst hw
          have hLs0 : Ls = [] := svBranches_zero _ L0 Ls hLs
          subst hLs0
          simp [starIter]
      | succ m =>
          have hcond1 : ∀ pr ∈ L0, pr.2.length < w.length →
              ∀ Li, svStarLoop svA n pr.1 pr.2 = some Li →
              (if (pr.2 ++ REST).length < (w ++ REST).length then
                starIter (fun p1 s1 => reA a G p1 s1) m pr.1 (pr.2 ++ REST) else []) =
                Li.map fun pr2 => (pr2.1, pr2.2 ++ REST) := by
            intro pr _ hlt Li hLi
            have hguard : (pr.2 ++ REST).length < (w ++ REST).length := by
              simp only [List.length_append]
              omega
            rw [if_pos hguard]
            exact ih pr.1 pr.2 Li hLi G m REST (le_trans (le_of_lt hlt) hG)
              (Nat.lt_succ_iff.mp (lt_of_lt_of_le hlt hm))
          have hcond2 : ∀ pr ∈ L0, ¬ pr.2.length < w.length →
              (if (pr.2 ++ REST).length < (w ++ REST).length then
                starIter (fun p1 s1 => reA a G p1 s1) m pr.1 (pr.2 ++ REST) else []) = [] := by
            intro pr _ hlt
            have hguard : ¬ (pr.2 ++ REST).length < (w ++ REST).length := by
              simp only [List.length_append]
              omega
            rw [if_neg hguard]
          have hbr := svBranches_flatMap (svStarLoop svA n) w.length
            (fun pr => (pr.1, pr.2 ++ REST))
            (fun pr => if (pr.2 ++ REST).length < (w ++ REST).length then
              starIter (fun p1 s1 => reA a G p1 s1) m pr.1 (pr.2 ++ REST) else [])
            L0 Ls hLs hcond1 hcond2
          rw [starIter_succ, hAs pv w L0 hL0 G REST hG, flatMap_map_eq]
          dsimp only
          rw [hbr, List.map_append]
          rfl

/-- Soundness of the window checker: a `some` verdict determines the
full result list of `reA` for every continuation of the window and
every fuel at least the window length. -/
theorem sv_sound :
    ∀ (r : RE) (pv : Option Char) (w : Str) (L : List MRes),
      sv r pv w = some L →
      ∀ (F : Nat) (REST : Str), w.length ≤ F →
        reA r F pv (w ++ REST) = L.map fun pr => (pr.1, pr.2 ++ REST) := by
  intro r
  induction r with
  | emp =>
      intro pv w L h F REST _
      simp only [sv] at h
      cases h
      rfl
  | cls p =>
      intro pv w L h F REST _
      cases w with
      | nil => exact absurd h (by simp [sv])
      | cons c t =>
          simp only [sv] at h
          cases h
          simp only [List.cons_append, reA]
          by_cases hc : p c
          · rw [if_pos hc, if_pos hc]
            rfl
          · rw [if_neg hc, if_neg hc]
            rfl
  | bndry =>
      intro pv w L h F REST _
      cases w with
      | nil => exact absurd h (by simp [sv])
      | cons c t =>
          simp only [sv] at h
          cases h
          simp only [List.cons_append, reA]
          have hb : boundaryB pv (c :: (t ++ REST)) = boundaryB pv (c :: t) := rfl
          rw [hb]
          by_cases hc : boundaryB pv (c :: t)
          · rw [if_pos hc, if_pos hc]
            rfl
          · rw [if_neg hc, if_neg hc]
            rfl
  | alt a b iha ihb =>
      intro pv w L h F REST hF
      simp only [sv, Option.bind_eq_some, Option.map_eq_some'] at h
      obtain ⟨L1, hL1, L2, hL2, rfl⟩ := h
      simp only [reA]
      rw [iha pv w L1 hL1 F REST hF, ihb pv w L2 hL2 F REST hF, List.map_append]
  | cat a b iha ihb =>
      intro pv w L h F REST hF
      simp only [sv, Option.bind_eq_some] at h
      obtain ⟨L1, hL1, hseq⟩ := h
      rw [reA_cat_eq, iha pv w L1 hL1 F REST hF, flatMap_map_eq]
      exact svSeq_flatMap (fun pr => sv b pr.1 pr.2)
        (fun pr => (pr.1, pr.2 ++ REST))
        (fun pr => reA b F (pr.1, pr.2 ++ REST).1 (pr.1, pr.2 ++ REST).2)
        L1 L hseq fun pr hpr Li hLi =>
          ihb pr.1 pr.2 Li hLi F REST (le_trans (sv_len a pv w L1 hL1 pr hpr) hF)
  | star a iha =>
      intro pv w L h F REST hF
      simp only [sv] at h
      rw [reA_star_eq]
      exact svStarLoop_sound a (fun pv2 w2 => sv a pv2 w2)
        (fun pv2 w2 Lw hw => iha pv2 w2 Lw hw) (w.length + 1) pv w L h F F REST hF hF

/-- A window verdict with no results refutes a match for every
continuation of the window. -/
theorem matchAt_of_sv_none (r : RE) (pv : Option Char) (w : Str)
    (h : sv r pv w = some []) (F : Nat) (REST : Str) (hF : w.length ≤ F) :
    matchAt r F pv (w ++ REST) = none := by
  unfold matchAt
  rw [sv_sound r pv w [] h F REST hF]
  rfl

/-- A window verdict with a first result determines the preferred
match for every continuation of the window. -/
theorem matchAt_of_sv_cons (r : RE) (pv : Option Char) (w : Str) (q : MRes)
    (L : List MRes) (h : sv r pv w = some (q :: L)) (F : Nat) (REST : Str)
    (hF : w.length ≤ F) :
    matchAt r F pv (w ++ REST) = some (q.1, q.2 ++ REST) := by
  unfold matchAt
  rw [sv_sound r pv w (q :: L) h F REST hF]
  rfl

/-- Decidable sufficient condition for match-freeness: at every
position of `P`, the window extending to the end of `P` refutes a
match. -/
def svAll (r : RE) : Option Char → Str → Bool
  | _, [] => true
  | pv, c :: P => decide (sv r pv (c :: P) = some []) && svAll r (some c) P

/-- `svAll` implies match-freeness along the prefix, for every scan
fuel and every continuation. -/
theorem nmAlong_of_svAll (r : RE) :
    ∀ (P : Str) (pv : Option Char), svAll r pv P = true →
      ∀ (f : Nat) (t : Str), nmAlong r f t P pv := by
  intro P
  induction P with
  | nil => intro pv _ f t; trivial
  | cons c P ih =>
      intro pv h f t
      simp only [svAll, Bool.and_eq_true, decide_eq_true_eq] at h
      refine ⟨?_, ih (some c) h.2 f t⟩
      have := matchAt_of_sv_none r pv (c :: P) h.1 (P.length + f + 2) t
        (by simp; omega)
      simpa using this

/-- Boolean form of match-freeness along a prefix, with the exact
scan fuels; evaluates through the matcher itself. -/
def nmAlongB (r : RE) (f : Nat) (t : Str) : Str → Option Char → Bool
  | [], _ => true
  | c :: P, prev =>
      decide (matchAt r (P.length + f + 2) prev (c :: (P ++ t)) = none) &&
        nmAlongB r f t P (some c)

/-- The Boolean form implies match-freeness. -/
theorem nmAlong_of_b (r : RE) (f : Nat) (t : Str) :
    ∀ (P : Str) (pv : Option Char), nmAlongB r f t P pv = true → nmAlong r f t P pv := by
  intro P
  induction P with
  | nil => intro pv _; trivial
  | cons c P ih =>
      intro pv h
      simp only [nmAlongB, Bool.and_eq_true, decide_eq_true_eq] at h
      exact ⟨h.1, ih (some c) h.2⟩

/-- Match-freeness concatenates. -/
theorem nmAlong_append (r : RE) (f : Nat) (t : Str) :
    ∀ (A B : Str) (pv : Option Char),
      nmAlong r (B.length + f) (B ++ t) A pv →
      nmAlong r f t B (prevAfter pv A) →
      nmAlong r f t (A ++ B) pv := by
  intro A
  induction A with
  | nil => intro B pv _ h2; exact h2
  | cons c A ih =>
      intro B pv h1 h2
      obtain ⟨hm, h1t⟩ := h1
      refine ⟨?_, ih B (some c) h1t h2⟩
      have hl : (A ++ B).length + f + 2 = A.length + (B.length + f) + 2 := by
        simp only [List.length_append]
        omega
      show matchAt r ((A ++ B).length + f + 2) pv (c :: ((A ++ B) ++ t)) = none
      rw [hl, List.append_assoc]
      exact hm

theorem prevAfter_append (pv : Option Char) (A B : Str) :
    prevAfter pv (A ++ B) = prevAfter (prevAfter pv A) B :=
  List.foldl_append _ _ _ _

theorem prevAfter_cons (pv : Option Char) (c : Char) (t : Str) :
    prevAfter pv (c :: t) = prevAfter (some c) t := rfl

theorem prevAfter_nil (pv : Option Char) : prevAfter pv [] = pv := rfl

/-- Unfolding of a flattened replicate. -/
theorem flat_succ (U : Str) (n : Nat) :
    (List.replicate (n + 1) U).flatten = U ++ (List.replicate n U).flatten := rfl

/-- Length of a flattened replicate. -/
theorem flat_len (U : Str) : ∀ (n : Nat),
    ((List.replicate n U).flatten).length = n * U.length := by
  intro n
  induction n with
  | zero => simp
  | succ n ih =>
      rw [flat_succ, List.length_append, ih, Nat.succ_mul]
      omega

/-- The previous-character tracker after a nonempty block run. -/
theorem prevAfter_flat (U : Str) (lc : Char)
    (hl : ∀ pv, prevAfter pv U = some lc) :
    ∀ (n : Nat) (pv : Option Char),
      prevAfter pv ((List.replicate (n + 1) U).flatten) = some lc := by
  intro n
  induction n with
  | zero =>
      intro pv
      rw [flat_succ, prevAfter_append,
        show (List.replicate 0 U).flatten = ([] : Str) from rfl, prevAfter_nil, hl]
  | succ n ih =>
      intro pv
      rw [flat_succ, prevAfter_append, hl]
      exact ih (some lc)

/-- Match-freeness of a replicated block, given window verdicts for
the two previous-character contexts that occur. -/
theorem nmAlong_flat (r : RE) (U : Str) (lc : Char)
    (hU0 : svAll r none U = true) (hU : svAll r (some lc) U = true)
    (hl : ∀ pv, prevAfter pv U = some lc) :
    ∀ (n f : Nat) (t : Str) (pv : Option Char), (pv = none ∨ pv = some lc) →
      nmAlong r f t ((List.replicate n U).flatten) pv := by
  intro n
  induction n with
  | zero => intro f t pv _; trivial
  | succ n ih =>
      intro f t pv hpv
      rw [flat_succ]
      refine nmAlong_append r f t U (List.replicate n U).flatten pv ?_ ?_
      · rcases hpv with rfl | rfl
        · exact nmAlong_of_svAll r U none hU0 _ _
        · exact nmAlong_of_svAll r U (some lc) hU _ _
      · rw [hl]
        exact ih f t (some lc) (Or.inr rfl)

/-- ReplaceAllString is the identity on a replicated block followed
by a tail when window verdicts refute a match at every position. -/
theorem replaceAll_units_id (r : RE) (repl : Str) (n : Nat) (U tl : Str) (lc : Char)
    (hU0 : svAll r none U = true) (hU : svAll r (some lc) U = true)
    (hl : ∀ pv, prevAfter pv U = some lc)
    (htl : nmAlong r 0 [] tl (some lc)) (hn : 0 < n)
    (hnil : matchAt r 1 (prevAfter (some lc) tl) [] = none) :
    replaceAll r repl ((List.replicate n U).flatten ++ tl) =
      (List.replicate n U).flatten ++ tl := by
  set P : Str := (List.replicate n U).flatten ++ tl with hP
  have hnm : nmAlong r 0 [] P none := by
    rw [hP]
    refine nmAlong_append r 0 [] (List.replicate n U).flatten tl none ?_ ?_
    · exact nmAlong_flat r U lc hU0 hU hl n _ _ none (Or.inl rfl)
    · obtain ⟨n2, rfl⟩ : ∃ n2, n = n2 + 1 := ⟨n - 1, by omega⟩
      rw [prevAfter_flat U lc hl]
      exact htl
  have hskip := scanF_skip_front r repl P 0 none [] hnm
  rw [List.append_nil, show P.length + 0 + 1 = P.length + 1 from by omega] at hskip
  unfold replaceAll
  rw [hskip]
  have hpa : prevAfter none P = prevAfter (some lc) tl := by
    rw [hP, prevAfter_append]
    obtain ⟨n2, rfl⟩ : ∃ n2, n = n2 + 1 := ⟨n - 1, by omega⟩
    rw [prevAfter_flat U lc hl]
  rw [hpa]
  have hend : scanF r repl (0 + 1) (prevAfter (some lc) tl) [] = [] := by
    simp only [scanF, hnil]
  rw [hend, List.append_nil]
/-- The scan over a replicated block each of whose copies begins
with a match of `M` (leaving exactly the one-character separator)
replaces every copy: window verdicts give the match at each block
start and refute a match at each separator. -/
theorem scanF_units_replace (r : RE) (repl : Str) (M : Str) (lc : Char)
    (p1 : Option Char) (L1 L2 : List MRes)
    (hm0 : sv r none (M ++ [lc]) = some ((p1, [lc]) :: L1))
    (hm : sv r (some lc) (M ++ [lc]) = some ((p1, [lc]) :: L2))
    (hs : sv r p1 [lc] = some [])
    (hM : M ≠ []) :
    ∀ (n f : Nat) (t : Str) (pv : Option Char), (pv = none ∨ pv = some lc) →
      M.length ≤ f →
      scanF r repl (2 * n + f + 1) pv ((List.replicate n (M ++ [lc])).flatten ++ t) =
        (List.replicate n (repl ++ [lc])).flatten ++
          scanF r repl (f + 1) (if n = 0 then pv else some lc) t := by
  intro n
  induction n with
  | zero =>
      intro f t pv _ _
      rw [show (2 : Nat) * 0 + f + 1 = f + 1 from by omega, if_pos rfl]
      rfl
  | succ n ih =>
      intro f t pv hpv hf
      rw [flat_succ, List.append_assoc]
      have hmatch : matchAt r (2 * n + f + 2 + 1) pv
          ((M ++ [lc]) ++ ((List.replicate n (M ++ [lc])).flatten ++ t)) =
          some (p1, [lc] ++ ((List.replicate n (M ++ [lc])).flatten ++ t)) := by
        have hlen : (M ++ [lc]).length ≤ 2 * n + f + 2 + 1 := by
          simp only [List.length_append, List.length_cons, List.length_nil]
          omega
        rcases hpv with rfl | rfl
        · exact matchAt_of_sv_cons r none (M ++ [lc]) (p1, [lc]) L1 hm0 _ _ hlen
        · exact matchAt_of_sv_cons r (some lc) (M ++ [lc]) (p1, [lc]) L2 hm _ _ hlen
      have hfuel : 2 * (n + 1) + f + 1 = (2 * n + f + 2) + 1 := by omega
      rw [hfuel]
      rw [scanF_match r repl (2 * n + f + 2) pv p1 _ _ hmatch (by
        simp only [List.length_append, List.length_cons, List.length_nil]
        have : 0 < M.length := List.length_pos.mpr hM
        omega)]
      have hskipm : matchAt r (2 * n + f + 1 + 1)
          p1 ([lc] ++ ((List.replicate n (M ++ [lc])).flatten ++ t)) = none :=
        matchAt_of_sv_none r p1 [lc] hs _ _ (by simp)
      rw [show (2 : Nat) * n + f + 2 = (2 * n + f + 1) + 1 from by omega]
      rw [show ([lc] ++ ((List.replicate n (M ++ [lc])).flatten ++ t) : Str) =
        lc :: ((List.replicate n (M ++ [lc])).flatten ++ t) from rfl]
      rw [scanF_skip r repl (2 * n + f + 1) p1 lc _ (by
        rw [show (2 : Nat) * n + f + 1 + 1 = (2 * n + f + 1) + 1 from rfl] at hskipm
        simpa using hskipm)]
      rw [ih f t (some lc) (Or.inr rfl) hf]
      rw [flat_succ (repl ++ [lc]) n]
      rw [if_neg (Nat.succ_ne_zero n), ite_self]
      simp only [List.append_assoc, List.cons_append, List.nil_append]
/-! ### The C8 counterexample input -/

/-- One block of the counterexample message. -/
def c8unit : Str := "secret=x ".toList

/-- The corresponding block of the scrubbed output. -/
def c8unitR : Str := "[REDACTED] ".toList

/-- The tail the truncation step produces: the five leading
characters of the cut 454th block followed by the truncation
marker. -/
def c8tail : Str := "secre...[TRUNCATED]".toList

/-- A 5000-byte message: 555 blocks of nine bytes and five filler
bytes. -/
def c8bigMsg : Str := (List.replicate 555 c8unit).flatten ++ "aaaaa".toList

/-- The truncation of the message to 4096 bytes. -/
def c8T : Str := (List.replicate 453 c8unit).flatten ++ c8tail

/-- The result of the scrubbing passes on the truncated message. -/
def c8T2 : Str := (List.replicate 453 c8unitR).flatten ++ c8tail

theorem c8len : c8bigMsg.length = 5000 := by
  unfold c8bigMsg
  rw [List.length_append, flat_len]
  decide

theorem c8take :
    c8bigMsg.take 4082 = (List.replicate 453 c8unit).flatten ++ "secre".toList := by
  have h453 : ((List.replicate 453 c8unit).flatten).length = 4077 := by
    rw [flat_len]
    decide
  have hsplit : c8bigMsg = (List.replicate 453 c8unit).flatten ++
      ((List.replicate 102 c8unit).flatten ++ "aaaaa".toList) := by
    unfold c8bigMsg
    rw [show (555 : Nat) = 453 + 102 from by norm_num, List.replicate_add,
      List.flatten_append, List.append_assoc]
  rw [hsplit, List.take_append_eq_append_take, h453,
    List.take_of_length_le (le_trans (le_of_eq h453) (by norm_num)),
    show (4082 : Nat) - 4077 = 5 from by norm_num,
    show (102 : Nat) = 101 + 1 from by norm_num, flat_succ c8unit 101,
    List.append_assoc, List.take_append_eq_append_take,
    show c8unit.take 5 = "secre".toList from by decide,
    show (5 : Nat) - c8unit.length = 0 from by decide, List.take_zero, List.append_nil]

theorem c8trunc : truncateWithMarker c8bigMsg 4096 = c8T := by
  unfold truncateWithMarker
  rw [if_neg (by rw [c8len]; norm_num), if_neg (by decide),
    show (4096 : Nat) - truncMarker.length = 4082 from by decide, c8take,
    List.append_assoc, show ("secre".toList ++ truncMarker : Str) = c8tail from by decide]
  rfl

/-- A scrub pattern with refuting window verdicts on the message
blocks and the tail leaves the truncated message unchanged. -/
theorem c8pass_id (r : RE)
    (h1 : svAll r none c8unit = true) (h2 : svAll r (some ' ') c8unit = true)
    (h3 : nmAlongB r 0 [] c8tail (some ' ') = true)
    (h4 : matchAt r 1 (prevAfter (some ' ') c8tail) [] = none) :
    replaceAll r redactedMarker c8T = c8T :=
  replaceAll_units_id r redactedMarker 453 c8unit c8tail ' '
    h1 h2 (fun _ => rfl) (nmAlong_of_b r 0 [] c8tail (some ' ') h3) (by norm_num) h4

/-- The analogue for the post-replacement blocks. -/
theorem c8pass_idR (r : RE)
    (h1 : svAll r none c8unitR = true) (h2 : svAll r (some ' ') c8unitR = true)
    (h3 : nmAlongB r 0 [] c8tail (some ' ') = true)
    (h4 : matchAt r 1 (prevAfter (some ' ') c8tail) [] = none) :
    replaceAll r redactedMarker c8T2 = c8T2 :=
  replaceAll_units_id r redactedMarker 453 c8unitR c8tail ' '
    h1 h2 (fun _ => rfl) (nmAlong_of_b r 0 [] c8tail (some ' ') h3) (by norm_num) h4

/-- The secret-credential pass replaces every block of the truncated
message and leaves the tail unchanged. -/
theorem c8pass10 :
    replaceAll (patCred "secret".toList) redactedMarker c8T = c8T2 := by
  have step := scanF_units_replace (patCred "secret".toList) redactedMarker
    "secret=x".toList ' ' (some 'x') [] []
    (by decide) (by decide) (by decide) (by decide)
    453 3190 c8tail none (Or.inl rfl) (by decide)
  rw [show ("secret=x".toList ++ [' '] : Str) = c8unit from by decide,
    show (redactedMarker ++ [' '] : Str) = c8unitR from by decide,
    if_neg (by norm_num : ¬ (453 : Nat) = 0)] at step
  have htail : scanF (patCred "secret".toList) redactedMarker (3190 + 1)
      (some ' ') c8tail = c8tail := by
    have hnm := nmAlong_of_b (patCred "secret".toList) 3171 [] c8tail (some ' ')
      (by decide)
    have hskip := scanF_skip_front (patCred "secret".toList) redactedMarker
      c8tail 3171 (some ' ') [] hnm
    rw [List.append_nil,
      show c8tail.length + 3171 + 1 = 3190 + 1 from by decide] at hskip
    rw [hskip]
    have hend : scanF (patCred "secret".toList) redactedMarker (3171 + 1)
        (prevAfter (some ' ') c8tail) [] = [] := by
      have hm : matchAt (patCred "secret".toList) (3171 + 1)
          (prevAfter (some ' ') c8tail) [] = none := by decide
      simp only [scanF, hm]
    rw [hend, List.append_nil]
  rw [htail] at step
  unfold replaceAll
  rw [show c8T.length = 4096 from by
      unfold c8T
      rw [List.length_append, flat_len]
      decide,
    show (4096 : Nat) + 1 = 2 * 453 + 3190 + 1 from by norm_num]
  exact step

/-- The scrub passes before the secret-credential pattern, in source
order. -/
def c8pre : List RE :=
  [patApiKey, patBearer, patSk, patGhp, patGho, patGithubPat, patXox, patJwt,
   patCred "password".toList]

/-- The scrub passes after the secret-credential pattern, in source
order. -/
def c8post : List RE :=
  [patCred "passwd".toList, patCred "credential".toList, patEmail, patSSN, patCC]

/-- One step of the pass fold. -/
theorem applyScrub_cons (p : RE) (ps : List RE) (s : Str) :
    applyScrubPatterns (p :: ps) s = applyScrubPatterns ps (replaceAll p redactedMarker s) :=
  rfl

/-- Splitting a pass list splits the fold. -/
theorem applyScrub_append (A B : List RE) (s : Str) :
    applyScrubPatterns (A ++ B) s = applyScrubPatterns B (applyScrubPatterns A s) :=
  List.foldl_append _ _ _ _

/-- Passes that each leave the text unchanged leave it unchanged in
sequence. -/
theorem applyScrub_id_of_all :
    ∀ (ps : List RE) (s : Str),
      (∀ p ∈ ps, replaceAll p redactedMarker s = s) →
      applyScrubPatterns ps s = s := by
  intro ps
  induction ps with
  | nil => intro s _; rfl
  | cons p ps ih =>
      intro s h
      show applyScrubPatterns ps (replaceAll p redactedMarker s) = s
      rw [h p (List.mem_cons_self p ps)]
      exact ih s fun q hq => h q (List.mem_cons_of_mem p hq)

theorem c8idApiKey : replaceAll patApiKey redactedMarker c8T = c8T :=
  c8pass_id patApiKey (by decide) (by decide) (by decide) (by decide)

theorem c8idBearer : replaceAll patBearer redactedMarker c8T = c8T :=
  c8pass_id patBearer (by decide) (by decide) (by decide) (by decide)

theorem c8idSk : replaceAll patSk redactedMarker c8T = c8T :=
  c8pass_id patSk (by decide) (by decide) (by decide) (by decide)

theorem c8idGhp : replaceAll patGhp redactedMarker c8T = c8T :=
  c8pass_id patGhp (by decide) (by decide) (by decide) (by decide)

theorem c8idGho : replaceAll patGho redactedMarker c8T = c8T :=
  c8pass_id patGho (by decide) (by decide) (by decide) (by decide)

theorem c8idGithubPat : replaceAll patGithubPat redactedMarker c8T = c8T :=
  c8pass_id patGithubPat (by decide) (by decide) (by decide) (by decide)

theorem c8idXox : replaceAll patXox redactedMarker c8T = c8T :=
  c8pass_id patXox (by decide) (by decide) (by decide) (by decide)

theorem c8idJwt : replaceAll patJwt redactedMarker c8T = c8T :=
  c8pass_id patJwt (by decide) (by decide) (by decide) (by decide)

theorem c8idPassword : replaceAll (patCred "password".toList) redactedMarker c8T = c8T :=
  c8pass_id (patCred "password".toList) (by decide) (by decide) (by decide) (by decide)

theorem c8idPasswd : replaceAll (patCred "passwd".toList) redactedMarker c8T2 = c8T2 :=
  c8pass_idR (patCred "passwd".toList) (by decide) (by decide) (by decide) (by decide)

theorem c8idCredential :
    replaceAll (patCred "credential".toList) redactedMarker c8T2 = c8T2 :=
  c8pass_idR (patCred "credential".toList) (by decide) (by decide) (by decide) (by decide)

theorem c8idEmail : replaceAll patEmail redactedMarker c8T2 = c8T2 :=
  c8pass_idR patEmail (by decide) (by decide) (by decide) (by decide)

theorem c8idSSN : replaceAll patSSN redactedMarker c8T2 = c8T2 :=
  c8pass_idR patSSN (by decide) (by decide) (by decide) (by decide)

theorem c8idCC : replaceAll patCC redactedMarker c8T2 = c8T2 :=
  c8pass_idR patCC (by decide) (by decide) (by decide) (by decide)

theorem c8pre_id : applyScrubPatterns c8pre c8T = c8T := by
  refine applyScrub_id_of_all c8pre c8T ?_
  intro p hp
  simp only [c8pre, List.mem_cons, List.not_mem_nil, or_false] at hp
  rcases hp with rfl | rfl | rfl | rfl | rfl | rfl | rfl | rfl | rfl
  exacts [c8idApiKey, c8idBearer, c8idSk, c8idGhp, c8idGho, c8idGithubPat,
    c8idXox, c8idJwt, c8idPassword]

theorem c8post_id : applyScrubPatterns c8post c8T2 = c8T2 := by
  refine applyScrub_id_of_all c8post c8T2 ?_
  intro p hp
  simp only [c8post, List.mem_cons, List.not_mem_nil, or_false] at hp
  rcases hp with rfl | rfl | rfl | rfl | rfl
  exacts [c8idPasswd, c8idCredential, c8idEmail, c8idSSN, c8idCC]

theorem c8split :
    messageScrubPatterns = c8pre ++ (patCred "secret".toList :: c8post) := rfl

theorem c8apply : applyScrubPatterns messageScrubPatterns c8T = c8T2 :=
  calc applyScrubPatterns messageScrubPatterns c8T
      = applyScrubPatterns (c8pre ++ (patCred "secret".toList :: c8post)) c8T := by
        rw [c8split]
    _ = applyScrubPatterns (patCred "secret".toList :: c8post)
          (applyScrubPatterns c8pre c8T) :=
        applyScrub_append c8pre (patCred "secret".toList :: c8post) c8T
    _ = applyScrubPatterns (patCred "secret".toList :: c8post) c8T :=
        congrArg _ c8pre_id
    _ = applyScrubPatterns c8post
          (replaceAll (patCred "secret".toList) redactedMarker c8T) :=
        applyScrub_cons (patCred "secret".toList) c8post c8T
    _ = applyScrubPatterns c8post c8T2 := congrArg _ c8pass10
    _ = c8T2 := c8post_id

theorem c8scrub : ScrubMessage DefaultScrubberConfig c8bigMsg = c8T2 := by
  unfold ScrubMessage
  rw [if_neg (by decide)]
  show applyScrubPatterns messageScrubPatterns
    (if c8bigMsg.length > DefaultScrubberConfig.MaxMessageSize then
      truncateWithMarker c8bigMsg DefaultScrubberConfig.MaxMessageSize
    else c8bigMsg) = c8T2
  rw [show DefaultScrubberConfig.MaxMessageSize = 4096 from rfl,
    if_pos (by rw [c8len]; norm_num : c8bigMsg.length > 4096), c8trunc]
  exact c8apply

theorem c8T2_len : c8T2.length = 5002 := by
  unfold c8T2
  rw [List.length_append, flat_len]
  decide

/-- C8 counterexample: a 5000-byte message scrubbed with the default
configuration (ScrubMessages on, MaxMessageSize 4096) yields output
strictly longer than the limit plus the truncation-marker length,
because the redaction passes run after truncation and the
"[REDACTED]" replacement is longer than the credential matches it
replaces. -/
theorem C8_counterexample_patterns_grow :
    c8bigMsg.length = 5000 ∧
    DefaultScrubberConfig.ScrubMessages = true ∧
    DefaultScrubberConfig.MaxMessageSize = 4096 ∧
    DefaultScrubberConfig.MaxMessageSize + truncMarker.length <
      (ScrubMessage DefaultScrubberConfig c8bigMsg).length := by
  refine ⟨c8len, rfl, rfl, ?_⟩
  rw [c8scrub, c8T2_len]
  decide

/-- C8 (amended): with scrubbing enabled and a message longer than
MaxMessageSize, ScrubMessage truncates to MaxMessageSize (marker
included) before the pattern passes; whenever the passes leave the
truncated text unchanged, the output is within the limit, and in
particular within the limit plus the marker length. -/
theorem C8_scrub_size_bound (cfg : ScrubberConfig) (msg : Str)
    (h1 : cfg.ScrubMessages = true) (h2 : cfg.MaxMessageSize < msg.length)
    (h3 : applyScrubPatterns messageScrubPatterns
        (truncateWithMarker msg cfg.MaxMessageSize) =
      truncateWithMarker msg cfg.MaxMessageSize) :
    (ScrubMessage cfg msg).length ≤ cfg.MaxMessageSize + truncMarker.length := by
  unfold ScrubMessage
  rw [if_neg (by rw [h1]; decide)]
  show (applyScrubPatterns messageScrubPatterns
    (if msg.length > cfg.MaxMessageSize then
      truncateWithMarker msg cfg.MaxMessageSize else msg)).length ≤ _
  rw [if_pos h2, h3]
  exact le_trans (truncateWithMarker_le h2) (Nat.le_add_right _ _)

/-- A configuration with the 16-byte limit used by the witness. -/
def c8wCfg : ScrubberConfig := { DefaultScrubberConfig with MaxMessageSize := 16 }

/-- The 20-byte witness message. -/
def c8wMsg : Str := List.replicate 20 '='

/-- Witness for the amended C8 bound at a concrete oversized message
on which no scrub pattern matches. -/
theorem C8_scrub_size_bound_witness :
    (ScrubMessage c8wCfg c8wMsg).length ≤ c8wCfg.MaxMessageSize + truncMarker.length :=
  C8_scrub_size_bound c8wCfg c8wMsg rfl (by decide) (by decide)

end Aisen
